import Mathlib

/-!
Verification of the core claims about the picture_viewer repository.

The development shallowly embeds the relevant Python modules:

* `src/models/base_thumbnail_cache.py` and `src/models/unified_thumbnail_cache.py`
  (two-tier thumbnail cache: in-memory LRU dictionary plus a SQLite-backed disk
  store),
* `src/controllers/workers.py` (worker lifecycle and throttled progress),
* `src/controllers/worker_manager.py` (active-worker bookkeeping),
* `src/controllers/unified_thumbnail_worker.py` (engine selection and fallback),
* `src/controllers/batch_processor.py` (batch scheduling).

Modelling conventions, used throughout:

* Python `dict`s are association lists with unique keys (the uniqueness is part
  of the stated invariants); `list`s are Lean lists.
* File-system facts that the code queries (`os.path.exists`, `os.path.getmtime`)
  are supplied by an explicit environment record.
* Modification times are carried in integer nanoseconds; `os.path.getmtime`
  returns that value in seconds as a float and Python's `int()` truncates it,
  which for nonnegative times is division by `10^9`.
* Wall-clock instants (`time.time()`) that the cache writes into its SQLite
  rows are explicit natural-number arguments of the operations.
* Float comparisons of the form `x <= limit * 0.8` (and `int(limit * 0.8)`)
  are embedded exactly as the rational comparison `5 * x <= 4 * limit`
  (respectively `(8 * limit) / 10` with truncating division).
* `QPixmap` is opaque to the cache; it is modelled by a small record carrying
  exactly the observations the code makes of it (nullity, encoded file size,
  and an abstract payload used to compare stored and reloaded thumbnails).
-/

namespace PictureViewer

/-! ## Decimal rendering of integers

Models Python's `str`/f-string conversion of a nonnegative integer, as used by
`BaseThumbnailCache._make_cache_key` (`f"{image_path}_{size[0]}x{size[1]}_{int(mtime)}"`).
The printer is written with explicit fuel so that it reduces inside `decide`.
-/

/-- Least-significant-first decimal digits of `n`, with explicit fuel. -/
def natDigitsAux : Nat → Nat → List Nat
  | 0, _ => []
  | _ + 1, 0 => []
  | fuel + 1, n + 1 => ((n + 1) % 10) :: natDigitsAux fuel ((n + 1) / 10)

/-- Least-significant-first decimal digits of `n` (`n` itself is enough fuel). -/
def natDigits (n : Nat) : List Nat := natDigitsAux n n

/-- Value of a least-significant-first digit list. -/
def digitsVal : List Nat → Nat
  | [] => 0
  | d :: ds => d + 10 * digitsVal ds

theorem digitsVal_natDigitsAux (fuel : Nat) :
    ∀ n, n ≤ fuel → digitsVal (natDigitsAux fuel n) = n := by
  induction fuel with
  | zero =>
    intro n hn
    interval_cases n
    simp [natDigitsAux, digitsVal]
  | succ f ih =>
    intro n hn
    match n with
    | 0 => simp [natDigitsAux, digitsVal]
    | m + 1 =>
      have hdiv : (m + 1) / 10 ≤ f := by
        have h1 : (m + 1) / 10 < m + 1 := Nat.div_lt_self (Nat.succ_pos m) (by omega)
        omega
      simp only [natDigitsAux, digitsVal, ih _ hdiv]
      omega

theorem digitsVal_natDigits (n : Nat) : digitsVal (natDigits n) = n :=
  digitsVal_natDigitsAux n n le_rfl

theorem natDigits_injective : Function.Injective natDigits := by
  intro a b h
  have := congrArg digitsVal h
  rwa [digitsVal_natDigits, digitsVal_natDigits] at this

theorem natDigitsAux_lt_ten (fuel : Nat) :
    ∀ n, ∀ d ∈ natDigitsAux fuel n, d < 10 := by
  induction fuel with
  | zero => intro n d hd; simp [natDigitsAux] at hd
  | succ f ih =>
    intro n d hd
    match n with
    | 0 => simp [natDigitsAux] at hd
    | m + 1 =>
      simp only [natDigitsAux, List.mem_cons] at hd
      rcases hd with rfl | hd
      · exact Nat.mod_lt _ (by omega)
      · exact ih _ _ hd

theorem natDigits_ne_nil {n : Nat} (hn : n ≠ 0) : natDigits n ≠ [] := by
  intro h
  have := digitsVal_natDigits n
  rw [h] at this
  simp [digitsVal] at this
  omega

/-- The character for one decimal digit. -/
def digitChar : Nat → Char
  | 0 => '0' | 1 => '1' | 2 => '2' | 3 => '3' | 4 => '4'
  | 5 => '5' | 6 => '6' | 7 => '7' | 8 => '8' | _ => '9'

/-- Reading a digit character back. -/
def digitVal : Char → Nat
  | '0' => 0 | '1' => 1 | '2' => 2 | '3' => 3 | '4' => 4
  | '5' => 5 | '6' => 6 | '7' => 7 | '8' => 8 | _ => 9

theorem digitVal_digitChar_fin : ∀ d : Fin 10, digitVal (digitChar d.val) = d.val := by
  decide

theorem digitVal_digitChar {d : Nat} (hd : d < 10) : digitVal (digitChar d) = d :=
  digitVal_digitChar_fin ⟨d, hd⟩

theorem map_digitChar_inj :
    ∀ {l₁ l₂ : List Nat}, (∀ d ∈ l₁, d < 10) → (∀ d ∈ l₂, d < 10) →
      l₁.map digitChar = l₂.map digitChar → l₁ = l₂ := by
  intro l₁
  induction l₁ with
  | nil => intro l₂ _ _ h; cases l₂ <;> simp_all
  | cons a t ih =>
    intro l₂ h₁ h₂ h
    cases l₂ with
    | nil => simp at h
    | cons b t₂ =>
      simp only [List.map_cons, List.cons.injEq] at h
      have ha : a < 10 := h₁ a (by simp)
      have hb : b < 10 := h₂ b (by simp)
      have hab : a = b := by
        have := congrArg digitVal h.1
        rwa [digitVal_digitChar ha, digitVal_digitChar hb] at this
      have ht : t = t₂ :=
        ih (fun d hd => h₁ d (by simp [hd])) (fun d hd => h₂ d (by simp [hd])) h.2
      rw [hab, ht]

/-- Decimal string of a natural number, the model of Python's `str(n)` for `n >= 0`
(most significant digit first). -/
def natStr (n : Nat) : String :=
  if n = 0 then "0" else String.mk (((natDigits n).map digitChar).reverse)

theorem natStr_ne_of_ne_zero {n : Nat} (hn : n ≠ 0) : natStr n ≠ natStr 0 := by
  intro h
  have hdata := congrArg String.data h
  rw [natStr, if_neg hn] at hdata
  have hd0 : (natStr 0).data = ['0'] := rfl
  rw [hd0] at hdata
  have hmap : (natDigits n).map digitChar = ['0'] := by
    have : ((natDigits n).map digitChar).reverse = ['0'] := hdata
    have h2 := congrArg List.reverse this
    simpa using h2
  cases hnd : natDigits n with
  | nil => exact natDigits_ne_nil hn hnd
  | cons d ds =>
    rw [hnd, List.map_cons] at hmap
    have hdc : digitChar d = '0' := (List.cons.injEq _ _ _ _ ▸ hmap).1
    have hds : ds.map digitChar = [] := (List.cons.injEq _ _ _ _ ▸ hmap).2
    have hds' : ds = [] := by
      cases ds with
      | nil => rfl
      | cons x xs => simp at hds
    have hdlt : d < 10 := natDigitsAux_lt_ten n n d (by rw [← natDigits]; simp [hnd])
    have hd0' : d = 0 := by
      have := congrArg digitVal hdc
      rw [digitVal_digitChar hdlt] at this
      simpa [digitVal] using this
    have hval := digitsVal_natDigits n
    rw [hnd, hds', hd0'] at hval
    simp [digitsVal] at hval
    omega

theorem natStr_injective : Function.Injective natStr := by
  intro a b h
  by_cases ha : a = 0 <;> by_cases hb : b = 0
  · omega
  · subst ha; exact absurd h.symm (natStr_ne_of_ne_zero hb)
  · subst hb; exact absurd h (natStr_ne_of_ne_zero ha)
  · have hdata := congrArg String.data h
    rw [natStr, if_neg ha, natStr, if_neg hb] at hdata
    have hmap : (natDigits a).map digitChar = (natDigits b).map digitChar :=
      List.reverse_injective hdata
    exact natDigits_injective
      (map_digitChar_inj (natDigitsAux_lt_ten a a) (natDigitsAux_lt_ten b b) hmap)

theorem string_append_left_cancel {s a b : String} (h : s ++ a = s ++ b) : a = b := by
  have hd := congrArg String.data h
  have hd' : s.data ++ a.data = s.data ++ b.data := hd
  exact String.ext (List.append_cancel_left hd')

/-! ## Environment and cache keys

`BaseThumbnailCache._make_cache_key` (src/models/base_thumbnail_cache.py,
lines 144-166) builds the key
`f"{image_path}_{size[0]}x{size[1]}_{int(mtime)}"` when the source file
exists, and `f"{image_path}_{size[0]}x{size[1]}"` when it does not.
-/

/-- File-system facts consulted by the cache: which source files exist and
their modification times in integer nanoseconds. -/
structure Env where
  srcExists : String → Bool
  srcMtimeNs : String → Nat

/-- `int(os.path.getmtime(p))`: the mtime in whole seconds, truncating. -/
def mtimeSeconds (ns : Nat) : Nat := ns / 1000000000

/-- Model of `BaseThumbnailCache._make_cache_key`. -/
def make_cache_key (env : Env) (image_path : String) (size : Nat × Nat) : String :=
  if env.srcExists image_path then
    image_path ++ "_" ++ natStr size.1 ++ "x" ++ natStr size.2 ++ "_" ++
      natStr (mtimeSeconds (env.srcMtimeNs image_path))
  else
    image_path ++ "_" ++ natStr size.1 ++ "x" ++ natStr size.2

theorem make_cache_key_exists_eq (env : Env) (p : String) (s : Nat × Nat)
    (h : env.srcExists p = true) :
    make_cache_key env p s =
      (p ++ "_" ++ natStr s.1 ++ "x" ++ natStr s.2 ++ "_") ++
        natStr (mtimeSeconds (env.srcMtimeNs p)) := by
  simp only [make_cache_key, if_pos h]

/-- Two environments giving `p` the same truncated mtime second. -/
def env52 : Env := ⟨fun _ => true, fun _ => 5200000000⟩

/-- Same path, mtime changed by half a second (5.7 s instead of 5.2 s). -/
def env57 : Env := ⟨fun _ => true, fun _ => 5700000000⟩

/-- C4, counterexample: the claim says any change of the source's modification
time produces a different key, but `_make_cache_key` truncates the mtime with
`int(...)`, so moving the mtime from 5.2 s to 5.7 s (a real change) leaves the
key unchanged. -/
theorem c4_key_counterexample :
    env52.srcMtimeNs "img.png" ≠ env57.srcMtimeNs "img.png" ∧
    make_cache_key env52 "img.png" (100, 100) =
      make_cache_key env57 "img.png" (100, 100) := by
  constructor
  · decide
  · decide

/-- C4, amended: the key is deterministic and depends on the modification time
only through its truncated whole-second value `int(mtime)`: keys agree whenever
the truncated mtimes agree (in particular for a fixed mtime), and keys differ
whenever the truncated mtimes differ. -/
theorem c4_key_stability (e₁ e₂ : Env) (p : String) (s : Nat × Nat)
    (h₁ : e₁.srcExists p = true) (h₂ : e₂.srcExists p = true) :
    (mtimeSeconds (e₁.srcMtimeNs p) = mtimeSeconds (e₂.srcMtimeNs p) →
      make_cache_key e₁ p s = make_cache_key e₂ p s) ∧
    (mtimeSeconds (e₁.srcMtimeNs p) ≠ mtimeSeconds (e₂.srcMtimeNs p) →
      make_cache_key e₁ p s ≠ make_cache_key e₂ p s) := by
  rw [make_cache_key_exists_eq e₁ p s h₁, make_cache_key_exists_eq e₂ p s h₂]
  constructor
  · intro h
    rw [h]
  · intro h heq
    exact h (natStr_injective (string_append_left_cancel heq))

/-- C4 witness: concrete instance of both halves of `c4_key_stability`. -/
theorem c4_key_stability_witness :
    make_cache_key env52 "a.png" (10, 20) = make_cache_key env52 "a.png" (10, 20) ∧
    make_cache_key env52 "a.png" (10, 20) ≠
      make_cache_key ⟨fun _ => true, fun _ => 7000000000⟩ "a.png" (10, 20) := by
  refine ⟨(c4_key_stability env52 env52 "a.png" (10, 20) rfl rfl).1 rfl, ?_⟩
  exact (c4_key_stability env52 ⟨fun _ => true, fun _ => 7000000000⟩ "a.png" (10, 20)
    rfl rfl).2 (by decide)

/-! ## Worker progress throttling

`BaseWorker.update_progress` (src/controllers/workers.py, lines 93-118):

```
if (progress != 100 and
    progress - self.last_progress < 5 and
    current_time - self.last_progress_time < self.progress_update_interval):
    return
progress = max(0, min(100, progress))
self.signals.progress.emit(progress)
if status: self.signals.progress_status.emit(status)
self.last_progress = progress
self.last_progress_time = current_time
```

Progress values are Python ints (`Int`); instants and the interval are float
seconds, modelled as rationals.
-/

/-- Throttling state of a `BaseWorker` plus the progress signals it emitted. -/
structure ProgState where
  last_progress : Int
  last_progress_time : ℚ
  progress_update_interval : ℚ
  emitted : List Int
  emitted_status : List String
deriving DecidableEq

/-- Model of `BaseWorker.update_progress`, called at instant `now`. -/
def update_progress (st : ProgState) (now : ℚ) (progress : Int)
    (status : Option String) : ProgState :=
  if progress ≠ 100 ∧ progress - st.last_progress < 5 ∧
      now - st.last_progress_time < st.progress_update_interval then
    st
  else
    let p := max 0 (min 100 progress)
    { st with
      emitted := st.emitted ++ [p]
      emitted_status :=
        match status with
        | some s => if s = "" then st.emitted_status else st.emitted_status ++ [s]
        | none => st.emitted_status
      last_progress := p
      last_progress_time := now }

/-- A throttle state sitting at 10 % with a fresh emission and a 500 ms interval. -/
def progStateAt10 : ProgState :=
  { last_progress := 10
    last_progress_time := 0
    progress_update_interval := 1/2
    emitted := []
    emitted_status := [] }

/-- C6, counterexample: a call with `percent = 0` against `lastPercent = 10`
changes the percentage by 5 or more in the decreasing direction
(`|0 - 10| >= 5`), so the claim requires an emission; the code compares the
signed difference `progress - last_progress < 5` and emits nothing. -/
theorem c6_progress_counterexample :
    (5 : Int) ≤ |(0 : Int) - progStateAt10.last_progress| ∧
    (update_progress progStateAt10 (1/10) 0 none).emitted = [] := by
  constructor
  · norm_num [progStateAt10]
  · have hcond : (0 : Int) ≠ 100 ∧ (0 : Int) - progStateAt10.last_progress < 5 ∧
        (1/10 : ℚ) - progStateAt10.last_progress_time <
          progStateAt10.progress_update_interval :=
      ⟨by norm_num, by norm_num [progStateAt10], by norm_num [progStateAt10]⟩
    simp only [update_progress, if_pos hcond]
    rfl

/-- C6, amended: a progress signal is emitted if and only if `percent == 100`,
or the signed difference `percent - lastPercent` is at least 5 (only increases
of 5 or more force an emission; decreases do not), or the time elapsed since
the last emission is at least `updateInterval`. -/
theorem c6_progress_throttle (st : ProgState) (now : ℚ) (progress : Int)
    (status : Option String) :
    (∃ q, (update_progress st now progress status).emitted = st.emitted ++ [q]) ↔
      (progress = 100 ∨ 5 ≤ progress - st.last_progress ∨
        st.progress_update_interval ≤ now - st.last_progress_time) := by
  constructor
  · intro h
    by_contra hc
    push_neg at hc
    have hcond : progress ≠ 100 ∧ progress - st.last_progress < 5 ∧
        now - st.last_progress_time < st.progress_update_interval :=
      ⟨hc.1, by omega, by linarith [hc.2.2]⟩
    rw [update_progress.eq_def, if_pos hcond] at h
    obtain ⟨q, hq⟩ := h
    have := congrArg List.length hq
    simp at this
  · intro h
    have hcond : ¬ (progress ≠ 100 ∧ progress - st.last_progress < 5 ∧
        now - st.last_progress_time < st.progress_update_interval) := by
      rcases h with h | h | h
      · exact fun hc => hc.1 h
      · exact fun hc => by omega
      · exact fun hc => absurd hc.2.2 (not_lt.mpr h)
    rw [update_progress.eq_def, if_neg hcond]
    exact ⟨max 0 (min 100 progress), rfl⟩

/-! ## Worker lifecycle

`BaseWorker.run` (src/controllers/workers.py, lines 120-163) wraps the
subclass hook `work()`:

```
try:
    self.signals.started.emit()
    if self.is_cancelled: return
    result = self.work()
    if not self.is_cancelled:
        self.signals.result.emit(result)
except CancellationError: pass
except Exception as e:
    if not self.is_cancelled:
        self.signals.error.emit(str(e))
finally:
    self.signals.finished.emit()
```

The cancellation flag is read twice (after `started` and before emitting the
result/error); the two reads are the booleans `c₀`, `c₁`.  The body `work()`
is abstracted by the progress values it emitted before returning or raising,
together with its outcome: a value, a `CancellationError` (raised by
`check_cancelled`), or another exception.
-/

/-- Signals a worker can emit during `run`. -/
inductive WSig (R : Type) where
  | started
  | progress (p : Int)
  | result (r : R)
  | error (msg : String)
  | finished
deriving DecidableEq

/-- How the `work()` body ends. -/
inductive WorkOutcome (R : Type) where
  | ok (r : R)
  | cancelErr
  | exn (msg : String)
deriving DecidableEq

/-- Model of `BaseWorker.run`: the list of signals emitted, in order.
`c₀` is the value of `is_cancelled` right after `started` fires and `c₁` its
value when the result/error emission is guarded. -/
def baseWorkerRun {R : Type} (c₀ c₁ : Bool) (prog : List Int)
    (outcome : WorkOutcome R) : List (WSig R) :=
  [WSig.started] ++
  (if c₀ then []
   else
     prog.map WSig.progress ++
       (match outcome with
        | .ok r => if c₁ then [] else [WSig.result r]
        | .cancelErr => []
        | .exn m => if c₁ then [] else [WSig.error m])) ++
  [WSig.finished]

/-- C7, confirmed: every execution of `run` emits `started` first, then the
progress signals of the body, then at most one of `result`/`error` (none when
cancelled), and `finished` exactly once at the end; an execution whose body
ended in `CancellationError` never emits `error`. -/
theorem c7_run_lifecycle {R : Type} [DecidableEq R] (c₀ c₁ : Bool)
    (prog : List Int) (outcome : WorkOutcome R) :
    ∃ (ps : List Int) (tail : List (WSig R)),
      baseWorkerRun c₀ c₁ prog outcome =
        WSig.started :: (ps.map WSig.progress ++ tail ++ [WSig.finished]) ∧
      (tail = [] ∨ (∃ r, tail = [WSig.result r]) ∨ (∃ m, tail = [WSig.error m])) ∧
      (baseWorkerRun c₀ c₁ prog outcome).count WSig.finished = 1 ∧
      (outcome = WorkOutcome.cancelErr →
        ∀ m, WSig.error m ∉ baseWorkerRun c₀ c₁ prog outcome) := by
  have hnopc : ∀ l : List Int, (l.map (WSig.progress (R := R))).count WSig.finished = 0 := by
    intro l
    rw [List.count_eq_zero]
    simp
  cases c₀ with
  | true =>
    refine ⟨[], [], by simp [baseWorkerRun], Or.inl rfl, ?_, ?_⟩
    · simp [baseWorkerRun]
    · intro _ m
      simp [baseWorkerRun]
  | false =>
    cases outcome with
    | ok r =>
      cases c₁ with
      | true =>
        refine ⟨prog, [], by simp [baseWorkerRun], Or.inl rfl, ?_, by intro h; cases h⟩
        simp [baseWorkerRun, List.count_append, List.count_cons, hnopc]
      | false =>
        refine ⟨prog, [WSig.result r], by simp [baseWorkerRun], Or.inr (Or.inl ⟨r, rfl⟩),
          ?_, by intro h; cases h⟩
        simp [baseWorkerRun, List.count_append, List.count_cons, hnopc]
    | cancelErr =>
      refine ⟨prog, [], by simp [baseWorkerRun], Or.inl rfl, ?_, ?_⟩
      · simp [baseWorkerRun, List.count_append, List.count_cons, hnopc]
      · intro _ m
        simp [baseWorkerRun]
    | exn msg =>
      cases c₁ with
      | true =>
        refine ⟨prog, [], by simp [baseWorkerRun], Or.inl rfl, ?_, by intro h; cases h⟩
        simp [baseWorkerRun, List.count_append, List.count_cons, hnopc]
      | false =>
        refine ⟨prog, [WSig.error msg], by simp [baseWorkerRun],
          Or.inr (Or.inr ⟨msg, rfl⟩), ?_, by intro h; cases h⟩
        simp [baseWorkerRun, List.count_append, List.count_cons, hnopc]

/-- C7 witness: a concrete cancelled execution, via `c7_run_lifecycle`. -/
theorem c7_run_lifecycle_witness :
    WSig.error (R := Nat) "boom" ∉
      baseWorkerRun false false [10, 60] (WorkOutcome.cancelErr (R := Nat)) := by
  obtain ⟨_, _, _, _, _, h⟩ :=
    c7_run_lifecycle (R := Nat) false false [10, 60] WorkOutcome.cancelErr
  exact h rfl "boom"

/-! ## Batch processor

`BatchProcessor` (src/controllers/batch_processor.py).  The module imports
`os`, `typing` and the Qt names, but not `time`; nevertheless
`_process_next_batch` (line 165) builds each worker id with

```
worker_id = f"batch_{os.path.basename(image_path)}_..._{time.time()}"
```

Evaluating `time.time()` therefore raises `NameError: name 'time' is not
defined` in the first loop iteration, before the cache is even consulted.
The whole body of `_process_next_batch` sits in a `try` whose handler
(lines 220-224) emits `error_occurred` and sets `is_processing = False`.
The model embeds this: whenever the method reaches the point of popping a
batch, the `NameError` branch is taken.

Events are the Qt signals the processor emits; `pending_timers` counts
`QTimer.singleShot(0, self._process_next_batch)` callbacks that have been
scheduled but not yet run (none are scheduled on the `NameError` path).
-/

/-- Signals emitted by `BatchProcessor`. -/
inductive BPEvent where
  | batchProgress (done total : Nat)
  | batchCompleted
  | thumbnailCreated (p : String)
  | errorOccurred (msg : String)
deriving DecidableEq, Repr

/-- State of a `BatchProcessor` (configuration defaults: `batch_size = 20`,
`max_concurrent = 8`, from utils/config.py). -/
structure BPState where
  queue : List String
  processing : List String
  completed : List String
  current_jobs : List (String × String)
  total_count : Nat
  is_processing : Bool
  batch_size : Nat
  max_concurrent : Nat
  events : List BPEvent
  pending_timers : Nat
deriving Repr

/-- A freshly constructed `BatchProcessor` with the configuration defaults. -/
def bpInit : BPState :=
  { queue := []
    processing := []
    completed := []
    current_jobs := []
    total_count := 0
    is_processing := false
    batch_size := 20
    max_concurrent := 8
    events := []
    pending_timers := 0 }

/-- Model of `BatchProcessor.cancel`. -/
def bpCancel (st : BPState) : BPState :=
  if st.is_processing = false then st
  else
    { st with
      is_processing := false
      queue := []
      processing := []
      current_jobs := [] }

/-- Model of `BatchProcessor._process_next_batch`.  The final branch is the
one in which the source raises `NameError` while interpolating `time.time()`
into the worker id; the surrounding `except` emits `error_occurred` and stops
processing. -/
def process_next_batch (st : BPState) : BPState :=
  if st.is_processing = false then st
  else if st.queue = [] ∧ st.current_jobs = [] then
    { st with
      is_processing := false
      events := st.events ++
        [BPEvent.batchProgress st.completed.length st.total_count,
         BPEvent.batchCompleted] }
  else if st.max_concurrent ≤ st.current_jobs.length then st
  else
    let slots := st.max_concurrent - st.current_jobs.length
    let lim := min st.batch_size (min slots st.queue.length)
    if lim = 0 then st
    else
      -- batch_paths have been popped; the first loop iteration evaluates
      -- the worker-id f-string and raises NameError (`time` is unbound)
      { st with
        queue := st.queue.drop lim
        is_processing := false
        events := st.events ++ [BPEvent.errorOccurred "name 'time' is not defined"] }

/-- Model of `BatchProcessor.process_images`. -/
def process_images (st : BPState) (image_paths : List String) : BPState :=
  let st₀ := if st.is_processing then bpCancel st else st
  if image_paths = [] then
    { st₀ with events := st₀.events ++ [BPEvent.errorOccurred "empty image list"] }
  else
    let st₁ :=
      { st₀ with
        queue := image_paths
        processing := []
        completed := []
        current_jobs := []
        total_count := image_paths.length
        is_processing := true
        events := st₀.events ++ [BPEvent.batchProgress 0 image_paths.length] }
    process_next_batch st₁

/-- C1, code bug: for every non-empty image list, `process_images` runs into
the unbound name `time` in `_process_next_batch`, emits `error_occurred`,
stops processing, and never emits `batch_completed`; afterwards the processor
is quiescent (no in-flight jobs, no scheduled callbacks, and
`_process_next_batch` is a no-op), so `batch_completed` can never fire, with
no key counted as completed — contradicting the claimed single
`batch_completed` with `done == total`. -/
theorem c1_batch_never_completes (image_paths : List String)
    (hne : image_paths ≠ []) :
    (process_images bpInit image_paths).events.count BPEvent.batchCompleted = 0 ∧
    (process_images bpInit image_paths).is_processing = false ∧
    (process_images bpInit image_paths).current_jobs = [] ∧
    (process_images bpInit image_paths).pending_timers = 0 ∧
    (process_images bpInit image_paths).completed = [] ∧
    process_next_batch (process_images bpInit image_paths) =
      process_images bpInit image_paths := by
  have hlen : image_paths.length ≠ 0 := fun h => hne (List.eq_nil_of_length_eq_zero h)
  refine ⟨?_, ?_, ?_, ?_, ?_, ?_⟩ <;>
    simp [process_images, process_next_batch, bpInit, bpCancel, hne, hlen,
      List.count_cons]

/-- C1 witness: the failing input `["img1.png"]` evaluated concretely. -/
theorem c1_batch_never_completes_witness :
    (process_images bpInit ["img1.png"]).events.count BPEvent.batchCompleted = 0 ∧
    (process_images bpInit ["img1.png"]).events =
      [BPEvent.batchProgress 0 1,
       BPEvent.errorOccurred "name 'time' is not defined"] :=
  ⟨(c1_batch_never_completes ["img1.png"] (by decide)).1, by decide⟩

/-! ## Worker manager

`WorkerManager` (src/controllers/worker_manager.py) keeps
`active_workers: Dict[str, QRunnable]`.  `start_worker` (lines 65-116) first
calls `cancel_worker` when the id is already active; `cancel_worker`
(lines 133-177) calls the worker's `cancel()` and pops the entry;
`mark_worker_finished` (lines 308-334) pops the entry and emits
`worker_finished`, then `all_workers_done` when the map became empty.

Worker objects are identified by a fresh reference number allocated at
submission; `MgrEvent.cancelCalled r` records that `worker.cancel()` was
invoked on the worker with reference `r`.
-/

/-- Signals and calls observable from a `WorkerManager` run. -/
inductive MgrEvent where
  | workerStarted (id : String)
  | workerFinished (id : String)
  | workerCancelled (id : String)
  | cancelCalled (ref : Nat)
  | allDone
deriving DecidableEq, Repr

/-- State of a `WorkerManager`: the `active_workers` dict (worker id to the
reference of the registered worker object) and the event trace. -/
structure MgrState where
  active_workers : List (String × Nat)
  next_ref : Nat
  events : List MgrEvent
deriving Repr

/-- A freshly constructed `WorkerManager`. -/
def mgrInit : MgrState := { active_workers := [], next_ref := 0, events := [] }

/-- Model of `WorkerManager.cancel_worker`. -/
def cancel_worker (st : MgrState) (id : String) : Bool × MgrState :=
  match List.lookup id st.active_workers with
  | some r =>
    (true,
      { st with
        active_workers := st.active_workers.filter (fun p => p.1 ≠ id)
        events := st.events ++ [MgrEvent.cancelCalled r, MgrEvent.workerCancelled id] })
  | none => (false, st)

/-- Model of `WorkerManager.start_worker`: a duplicate id is cancelled first,
then the new worker (reference `next_ref`) is registered and started. -/
def start_worker (st : MgrState) (id : String) : MgrState :=
  let st₀ := if (List.lookup id st.active_workers).isSome then (cancel_worker st id).2 else st
  let r := st₀.next_ref
  { st₀ with
    active_workers := st₀.active_workers ++ [(id, r)]
    next_ref := r + 1
    events := st₀.events ++ [MgrEvent.workerStarted id] }

/-- Model of `WorkerManager.mark_worker_finished`. -/
def mark_worker_finished (st : MgrState) (id : String) : MgrState :=
  match List.lookup id st.active_workers with
  | some _ =>
    let remaining := st.active_workers.filter (fun p => p.1 ≠ id)
    { st with
      active_workers := remaining
      events := st.events ++ [MgrEvent.workerFinished id] ++
        (if remaining = [] then [MgrEvent.allDone] else []) }
  | none => st

/-- Model of `WorkerManager.cancel_all`: cancel every id in a snapshot of the
active map, then report `all_workers_done` if the map is empty. -/
def cancel_all (st : MgrState) : MgrState :=
  let st₁ := (st.active_workers.map Prod.fst).foldl (fun s id => (cancel_worker s id).2) st
  if st₁.active_workers = [] then
    { st₁ with events := st₁.events ++ [MgrEvent.allDone] }
  else st₁

/-- The public operations of the manager. -/
inductive MgrOp where
  | start (id : String)
  | cancel (id : String)
  | finish (id : String)
  | cancelAll
deriving DecidableEq, Repr

/-- Run a sequence of manager operations from the initial state. -/
def runMgr (ops : List MgrOp) : MgrState :=
  ops.foldl
    (fun st op =>
      match op with
      | .start id => start_worker st id
      | .cancel id => (cancel_worker st id).2
      | .finish id => mark_worker_finished st id
      | .cancelAll => cancel_all st)
    mgrInit

/-- Bookkeeping invariant of the manager: the `active_workers` dict has unique
ids, every registered reference was allocated before `next_ref`, and no two
entries share a worker object (reference). -/
def MgrInv (st : MgrState) : Prop :=
  (st.active_workers.map Prod.fst).Nodup ∧
  (∀ p ∈ st.active_workers, p.2 < st.next_ref) ∧
  (st.active_workers.map Prod.snd).Nodup

theorem lookup_ne_none_of_mem {α β : Type} [BEq α] [LawfulBEq α]
    (l : List (α × β)) (p : α × β) (hp : p ∈ l) : List.lookup p.1 l ≠ none := by
  induction l with
  | nil => simp at hp
  | cons q t ih =>
    rcases List.mem_cons.mp hp with rfl | hp
    · simp [List.lookup]
    · rw [List.lookup]
      by_cases hq : p.1 == q.1
      · simp [hq]
      · simpa [hq] using ih hp

theorem mgrInv_init : MgrInv mgrInit := by
  constructor <;> simp [mgrInit]

theorem lookup_eq_none_of_not_mem {α β : Type} [BEq α] [LawfulBEq α]
    {l : List (α × β)} {a : α} (h : a ∉ l.map Prod.fst) : List.lookup a l = none := by
  induction l with
  | nil => rfl
  | cons q t ih =>
    simp only [List.map_cons, List.mem_cons] at h
    push_neg at h
    rw [List.lookup]
    have : (a == q.1) = false := beq_false_of_ne h.1
    rw [this]
    exact ih h.2

theorem mem_of_lookup_eq_some {α β : Type} [BEq α] [LawfulBEq α]
    {l : List (α × β)} {a : α} {b : β} (h : List.lookup a l = some b) : (a, b) ∈ l := by
  induction l with
  | nil => simp [List.lookup] at h
  | cons q t ih =>
    rw [List.lookup] at h
    by_cases hq : a == q.1
    · rw [hq] at h
      simp only [Option.some.injEq] at h
      have ha : a = q.1 := eq_of_beq hq
      have hq' : (a, b) = q := by rw [ha, ← h]
      rw [hq']
      exact List.mem_cons_self q t
    · have : (a == q.1) = false := by simpa using hq
      rw [this] at h
      exact List.mem_cons_of_mem _ (ih h)

/-- A sublist of the active map keeps all three invariant components. -/
theorem mgrInv_sub (st : MgrState) (l : List (String × Nat))
    (hsub : l.Sublist st.active_workers) (h : MgrInv st) (ev : List MgrEvent) :
    MgrInv { st with active_workers := l, events := ev } := by
  rcases h with ⟨hnd, hlt, hrefs⟩
  exact ⟨hnd.sublist (hsub.map Prod.fst),
    fun p hp => hlt p (hsub.mem hp),
    hrefs.sublist (hsub.map Prod.snd)⟩

theorem mgrInv_cancel (st : MgrState) (id : String) (h : MgrInv st) :
    MgrInv (cancel_worker st id).2 := by
  rw [cancel_worker]
  cases List.lookup id st.active_workers with
  | none => exact h
  | some r => exact mgrInv_sub st _ (List.filter_sublist _) h _

/-- Appending a fresh registration while bumping `next_ref` preserves the
invariant, provided the submitted id is not active. -/
theorem mgrInv_register (st : MgrState) (id : String) (h : MgrInv st)
    (hnotin : id ∉ st.active_workers.map Prod.fst) (ev : List MgrEvent) :
    MgrInv { st with active_workers := st.active_workers ++ [(id, st.next_ref)],
                     next_ref := st.next_ref + 1, events := ev } := by
  rcases h with ⟨hnd, hlt, hrefs⟩
  refine ⟨?_, ?_, ?_⟩
  · simp only [List.map_append, List.map_cons, List.map_nil]
    rw [List.nodup_append]
    exact ⟨hnd, List.nodup_singleton _, by simpa using fun hmem => hnotin hmem⟩
  · intro p hp
    rcases List.mem_append.mp hp with hp | hp
    · exact Nat.lt_succ_of_lt (hlt p hp)
    · simp only [List.mem_cons, List.not_mem_nil, or_false] at hp
      subst hp
      exact Nat.lt_succ_self _
  · simp only [List.map_append, List.map_cons, List.map_nil]
    rw [List.nodup_append]
    refine ⟨hrefs, List.nodup_singleton _, ?_⟩
    intro x hx
    rcases List.mem_map.mp hx with ⟨p, hp, rfl⟩
    simp only [List.mem_cons, List.not_mem_nil, or_false]
    intro hcontra
    have := hlt p hp
    rw [hcontra] at this
    exact absurd this (lt_irrefl _)

theorem mgrInv_start (st : MgrState) (id : String) (h : MgrInv st) :
    MgrInv (start_worker st id) := by
  rw [start_worker]
  by_cases hl : (List.lookup id st.active_workers).isSome
  · simp only [if_pos hl]
    have h₀ := mgrInv_cancel st id h
    have hnotin : id ∉ ((cancel_worker st id).2.active_workers.map Prod.fst) := by
      rw [cancel_worker]
      rcases hsome : List.lookup id st.active_workers with _ | r
      · rw [hsome] at hl; simp at hl
      · simp only [List.mem_map]
        rintro ⟨p, hp, rfl⟩
        have := List.of_mem_filter hp
        simp at this
    exact mgrInv_register _ id h₀ hnotin _
  · simp only [if_neg hl]
    have hnotin : id ∉ (st.active_workers.map Prod.fst) := by
      intro hmem
      rcases List.mem_map.mp hmem with ⟨p, hp, rfl⟩
      exact lookup_ne_none_of_mem st.active_workers p hp
        (Option.not_isSome_iff_eq_none.mp hl)
    exact mgrInv_register st id h hnotin _

theorem mgrInv_finish (st : MgrState) (id : String) (h : MgrInv st) :
    MgrInv (mark_worker_finished st id) := by
  rw [mark_worker_finished]
  cases List.lookup id st.active_workers with
  | none => exact h
  | some r => exact mgrInv_sub st _ (List.filter_sublist _) h _

theorem mgrInv_cancel_foldl (ids : List String) :
    ∀ st : MgrState, MgrInv st →
      MgrInv (ids.foldl (fun s id => (cancel_worker s id).2) st) := by
  induction ids with
  | nil => intro st h; exact h
  | cons i t ih =>
    intro st h
    exact ih _ (mgrInv_cancel st i h)

theorem mgrInv_cancel_all (st : MgrState) (h : MgrInv st) :
    MgrInv (cancel_all st) := by
  rw [cancel_all]
  have h₁ := mgrInv_cancel_foldl (st.active_workers.map Prod.fst) st h
  set st₁ := (st.active_workers.map Prod.fst).foldl
    (fun s id => (cancel_worker s id).2) st with hst₁
  by_cases he : st₁.active_workers = []
  · simp only [if_pos he]
    exact ⟨by rw [he]; simp, by rw [he]; simp, by rw [he]; simp⟩
  · simp only [if_neg he]
    exact h₁

theorem mgrInv_runMgr (ops : List MgrOp) : MgrInv (runMgr ops) := by
  rw [runMgr]
  have : ∀ (l : List MgrOp) (st : MgrState), MgrInv st →
      MgrInv (l.foldl
        (fun st op =>
          match op with
          | .start id => start_worker st id
          | .cancel id => (cancel_worker st id).2
          | .finish id => mark_worker_finished st id
          | .cancelAll => cancel_all st) st) := by
    intro l
    induction l with
    | nil => intro st h; exact h
    | cons op t ih =>
      intro st h
      refine ih _ ?_
      cases op with
      | start id => exact mgrInv_start st id h
      | cancel id => exact mgrInv_cancel st id h
      | finish id => exact mgrInv_finish st id h
      | cancelAll => exact mgrInv_cancel_all st h
  exact this ops mgrInit mgrInv_init

/-- C8, confirmed: after any sequence of manager operations the active map has
at most one worker per id, and submitting a worker under an already-active id
first calls `cancel()` on the prior worker and removes it (the `cancelCalled`
and `workerCancelled` events precede `workerStarted` in the trace), so the
prior worker object is no longer registered and the new one is. -/
theorem c8_at_most_one_worker_per_id (ops : List MgrOp) (id : String) :
    ((runMgr ops).active_workers.map Prod.fst).Nodup ∧
    (∀ r : Nat, List.lookup id (runMgr ops).active_workers = some r →
      (start_worker (runMgr ops) id).events =
        (runMgr ops).events ++
          [MgrEvent.cancelCalled r, MgrEvent.workerCancelled id,
           MgrEvent.workerStarted id] ∧
      (∀ p ∈ (start_worker (runMgr ops) id).active_workers, p.2 ≠ r) ∧
      List.lookup id (start_worker (runMgr ops) id).active_workers =
        some (runMgr ops).next_ref) := by
  obtain ⟨hnd, hlt, hrefs⟩ := mgrInv_runMgr ops
  refine ⟨hnd, ?_⟩
  intro r hr
  set st := runMgr ops with hst
  have hmem : (id, r) ∈ st.active_workers := mem_of_lookup_eq_some hr
  have hsome : (List.lookup id st.active_workers).isSome := by rw [hr]; rfl
  have hcw : cancel_worker st id =
      (true,
        { st with
          active_workers := st.active_workers.filter (fun p => p.1 ≠ id)
          events := st.events ++
            [MgrEvent.cancelCalled r, MgrEvent.workerCancelled id] }) := by
    rw [cancel_worker, hr]
  have hsw : start_worker st id =
      { active_workers := st.active_workers.filter (fun p => p.1 ≠ id) ++
          [(id, st.next_ref)]
        next_ref := st.next_ref + 1
        events := (st.events ++
          [MgrEvent.cancelCalled r, MgrEvent.workerCancelled id]) ++
          [MgrEvent.workerStarted id] } := by
    rw [start_worker, if_pos hsome, hcw]
  rw [hsw]
  refine ⟨by simp, ?_, ?_⟩
  · intro p hp
    rcases List.mem_append.mp hp with hp | hp
    · intro hpr
      have hpne : p.1 ≠ id := by simpa using List.of_mem_filter hp
      have hpmem : p ∈ st.active_workers := List.mem_of_mem_filter hp
      have : p = (id, r) := List.inj_on_of_nodup_map hrefs hpmem hmem hpr
      exact hpne (by rw [this])
    · simp only [List.mem_cons, List.not_mem_nil, or_false] at hp
      subst hp
      intro hcontra
      have := hlt (id, r) hmem
      simp only at hcontra
      omega
  · rw [List.lookup_append]
    have hnone : List.lookup id
        (st.active_workers.filter (fun p => p.1 ≠ id)) = none := by
      apply lookup_eq_none_of_not_mem
      intro hmem'
      rcases List.mem_map.mp hmem' with ⟨p, hp, rfl⟩
      have := List.of_mem_filter hp
      simp at this
    rw [hnone]
    simp [List.lookup]

/-- C8 witness: two submissions under the same id, evaluated concretely. -/
theorem c8_at_most_one_worker_per_id_witness :
    ((runMgr [MgrOp.start "w", MgrOp.start "w"]).active_workers.map Prod.fst).Nodup ∧
    (start_worker (runMgr [MgrOp.start "w", MgrOp.start "w"]) "w").events =
      (runMgr [MgrOp.start "w", MgrOp.start "w"]).events ++
        [MgrEvent.cancelCalled 1, MgrEvent.workerCancelled "w",
         MgrEvent.workerStarted "w"] := by
  refine ⟨(c8_at_most_one_worker_per_id [MgrOp.start "w", MgrOp.start "w"] "w").1, ?_⟩
  exact ((c8_at_most_one_worker_per_id [MgrOp.start "w", MgrOp.start "w"] "w").2 1
    (by decide)).1

/-! ## Two-tier thumbnail cache: data model

`UnifiedThumbnailCache` (src/models/unified_thumbnail_cache.py) over
`BaseThumbnailCache` (src/models/base_thumbnail_cache.py).  The in-memory
tier is `memory_cache: Dict[str, QPixmap]` plus the LRU list
`access_order: List[str]`; the disk tier is the `thumbnails` SQLite table
plus one PNG file per entry.  Python dicts are modelled as association lists
with unique keys.
-/

/-- The observations the cache makes of a `QPixmap`: `isNull()`, the byte size
of the PNG file it saves to (`os.path.getsize` after `save`), and an abstract
payload distinguishing different thumbnails. -/
structure Pix where
  isNull : Bool
  fileSize : Nat
  data : Nat
deriving DecidableEq, Repr

/-- A Python `dict` from strings, as an association list. -/
abbrev Dict (V : Type) := List (String × V)

/-- The keys of a dict, in insertion order. -/
def dKeys {V : Type} (d : Dict V) : List String := d.map Prod.fst

/-- `d[k]` / `d.get(k)`. -/
def dGet {V : Type} (d : Dict V) (k : String) : Option V := List.lookup k d

/-- `d[k] = v`: replace in place if the key exists, else append. -/
def dSet {V : Type} (d : Dict V) (k : String) (v : V) : Dict V :=
  if k ∈ dKeys d then d.map (fun p => if p.1 = k then (k, v) else p) else d ++ [(k, v)]

/-- `del d[k]` (a no-op when the key is absent, matching the guarded deletes
in the source). -/
def dDel {V : Type} (d : Dict V) (k : String) : Dict V := d.filter (fun p => p.1 ≠ k)

theorem dKeys_dSet_of_mem {V : Type} {d : Dict V} {k : String} (v : V)
    (h : k ∈ dKeys d) : dKeys (dSet d k v) = dKeys d := by
  rw [dSet, if_pos h, dKeys, dKeys, List.map_map]
  apply List.map_congr_left
  intro p _
  by_cases hp : p.1 = k
  · simp [hp]
  · simp [hp]

theorem dKeys_dSet_of_not_mem {V : Type} {d : Dict V} {k : String} (v : V)
    (h : k ∉ dKeys d) : dKeys (dSet d k v) = dKeys d ++ [k] := by
  rw [dSet, if_neg h, dKeys, dKeys, List.map_append]
  rfl

theorem length_dSet_of_mem {V : Type} {d : Dict V} {k : String} (v : V)
    (h : k ∈ dKeys d) : (dSet d k v).length = d.length := by
  rw [dSet, if_pos h, List.length_map]

theorem length_dSet_of_not_mem {V : Type} {d : Dict V} {k : String} (v : V)
    (h : k ∉ dKeys d) : (dSet d k v).length = d.length + 1 := by
  rw [dSet, if_neg h, List.length_append, List.length_cons, List.length_nil]

theorem dKeys_dDel {V : Type} (d : Dict V) (k : String) :
    dKeys (dDel d k) = (dKeys d).filter (fun s => s ≠ k) := by
  induction d with
  | nil => rfl
  | cons p t ih =>
    by_cases hp : p.1 = k
    · simp only [dDel, dKeys, List.filter_cons, List.map_cons] at *
      simp [hp] at *
      exact ih
    · simp only [dDel, dKeys, List.filter_cons, List.map_cons] at *
      simp [hp] at *
      exact ih

theorem mem_dKeys_dDel {V : Type} {d : Dict V} {k a : String} :
    a ∈ dKeys (dDel d k) ↔ a ∈ dKeys d ∧ a ≠ k := by
  rw [dKeys_dDel, List.mem_filter]
  simp

theorem dKeys_dDel_nodup {V : Type} {d : Dict V} (k : String)
    (h : (dKeys d).Nodup) : (dKeys (dDel d k)).Nodup := by
  rw [dKeys_dDel]
  exact h.filter _

theorem length_dDel_of_mem {V : Type} {d : Dict V} {k : String}
    (hnd : (dKeys d).Nodup) (h : k ∈ dKeys d) :
    (dDel d k).length + 1 = d.length := by
  induction d with
  | nil => simp [dKeys] at h
  | cons p t ih =>
    simp only [dKeys, List.map_cons, List.nodup_cons] at hnd
    rcases List.mem_cons.mp h with hk | hk
    · have hfilter : dDel (p :: t) k = t.filter (fun q => q.1 ≠ k) := by
        rw [dDel, List.filter_cons]
        simp [← hk]
      rw [hfilter]
      have : t.filter (fun q => q.1 ≠ k) = t := by
        rw [List.filter_eq_self]
        intro q hq
        simp only [decide_eq_true_eq]
        intro hqk
        exact hnd.1 (by rw [← hk, ← hqk]; exact List.mem_map_of_mem Prod.fst hq)
      rw [this, List.length_cons]
    · have hpk : p.1 ≠ k := by
        intro hc
        exact hnd.1 (hc ▸ hk)
      have hfilter : dDel (p :: t) k = p :: t.filter (fun q => q.1 ≠ k) := by
        rw [dDel, List.filter_cons]
        simp [hpk]
      rw [hfilter, List.length_cons, List.length_cons]
      have := ih hnd.2 hk
      rw [dDel] at this
      omega

theorem dGet_some_mem_dKeys {V : Type} {d : Dict V} {k : String} {v : V}
    (h : dGet d k = some v) : k ∈ dKeys d := by
  have := mem_of_lookup_eq_some h
  exact List.mem_map_of_mem Prod.fst this

theorem dGet_none_of_not_mem {V : Type} {d : Dict V} {k : String}
    (h : k ∉ dKeys d) : dGet d k = none :=
  lookup_eq_none_of_not_mem h

/-- A row of the `thumbnails` SQLite table (`rid` is the AUTOINCREMENT id). -/
structure Row where
  rid : Nat
  image_path : String
  width : Nat
  height : Nat
  cache_path : String
  file_size : Nat
  created_at : Nat
  last_accessed : Nat
  access_count : Nat
  cache_key : String
deriving DecidableEq, Repr

/-- Full state of a `UnifiedThumbnailCache`: limits, the in-memory tier
(`memory_cache` and `access_order`), the `thumbnails` table (`db`, with the
next AUTOINCREMENT id), the PNG files on disk (`files`, keyed by cache path),
and the in-process counters of `self.stats`. -/
structure UCState where
  memory_limit : Nat
  disk_cache_limit : Nat
  memory_cache : Dict Pix
  access_order : List String
  db : List Row
  next_id : Nat
  files : Dict Pix
  hits : Nat
  misses : Nat
  writes : Nat
deriving DecidableEq, Repr

/-- A freshly constructed cache (`disk_cache_limit` in bytes). -/
def initUC (memory_limit disk_cache_limit : Nat) : UCState :=
  { memory_limit := memory_limit
    disk_cache_limit := disk_cache_limit
    memory_cache := []
    access_order := []
    db := []
    next_id := 1
    files := []
    hits := 0
    misses := 0
    writes := 0 }

/-- Model of `BaseThumbnailCache._update_access_order`: move (or insert) the
key to the most-recently-used end.  Python's `list.remove` drops the first
occurrence when present, which is `List.erase`. -/
def update_access_order (ao : List String) (cache_key : String) : List String :=
  ao.erase cache_key ++ [cache_key]

/-- Model of `BaseThumbnailCache._add_to_memory_cache` (lines 182-205): when
at capacity and the key is new, pop the head of `access_order` and delete it
from `memory_cache`, then store the thumbnail and refresh the access order. -/
def add_to_memory_cache (st : UCState) (cache_key : String) (v : Pix) : UCState :=
  let st₁ :=
    if st.memory_limit ≤ st.memory_cache.length ∧ cache_key ∉ dKeys st.memory_cache then
      match st.access_order with
      | [] => st
      | oldest :: rest =>
        { st with
          access_order := rest
          memory_cache :=
            if oldest ∈ dKeys st.memory_cache then dDel st.memory_cache oldest
            else st.memory_cache }
    else st
  { st₁ with
    memory_cache := dSet st₁.memory_cache cache_key v
    access_order := update_access_order st₁.access_order cache_key }

/-- Model of `BaseThumbnailCache._get_disk_cache_path`: the md5 hex digest of
`f"{image_path}_{w}x{h}"` plus `.png`; the digest is modelled as a
collision-free encoding of its input string. -/
def get_disk_cache_path (image_path : String) (size : Nat × Nat) : String :=
  "md5-" ++ image_path ++ "_" ++ natStr size.1 ++ "x" ++ natStr size.2 ++ ".png"

/-- `SELECT ... FROM thumbnails WHERE image_path = ? AND width = ? AND height = ?`. -/
def dbFind (db : List Row) (p : String) (w h : Nat) : Option Row :=
  db.find? (fun r => r.image_path == p && r.width == w && r.height == h)

/-- `UPDATE thumbnails SET last_accessed = ?, access_count = access_count + 1
WHERE image_path = ? AND width = ? AND height = ?`
(`UnifiedThumbnailCache._update_db_access_time` and the update inside
`_load_from_disk`). -/
def update_db_access_time (st : UCState) (p : String) (size : Nat × Nat)
    (now : Nat) : UCState :=
  { st with
    db := st.db.map (fun r =>
      if r.image_path = p ∧ r.width = size.1 ∧ r.height = size.2 then
        { r with last_accessed := now, access_count := r.access_count + 1 }
      else r) }

/-- Model of `UnifiedThumbnailCache._save_to_disk` (lines 592-656): save the
PNG (fails only for a null pixmap), then upsert the metadata row keyed by
`(image_path, width, height)`. -/
def save_to_disk (st : UCState) (p : String) (size : Nat × Nat) (v : Pix)
    (cache_key : String) (now : Nat) : Bool × UCState :=
  if v.isNull then (false, st)
  else
    let cache_path := get_disk_cache_path p size
    let st₁ := { st with files := dSet st.files cache_path v }
    match dbFind st₁.db p size.1 size.2 with
    | some _ =>
      (true, { st₁ with
        db := st₁.db.map (fun r =>
          if r.image_path = p ∧ r.width = size.1 ∧ r.height = size.2 then
            { r with cache_path := cache_path, file_size := v.fileSize,
                     created_at := now, last_accessed := now,
                     cache_key := cache_key }
          else r) })
    | none =>
      let newRow : Row :=
        { rid := st₁.next_id
          image_path := p
          width := size.1
          height := size.2
          cache_path := cache_path
          file_size := v.fileSize
          created_at := now
          last_accessed := now
          access_count := 0
          cache_key := cache_key }
      (true, { st₁ with db := st₁.db ++ [newRow], next_id := st₁.next_id + 1 })

/-- Model of `UnifiedThumbnailCache._load_from_disk` (lines 542-590): look the
row up by `(image_path, width, height)`; if its backing file exists, bump the
access metadata and load the pixmap, failing on a corrupt (null) file. -/
def load_from_disk (st : UCState) (p : String) (size : Nat × Nat) (now : Nat) :
    Option Pix × UCState :=
  match dbFind st.db p size.1 size.2 with
  | none => (none, st)
  | some r =>
    if r.cache_path ∈ dKeys st.files then
      let st₁ := update_db_access_time st p size now
      match dGet st.files r.cache_path with
      | some v => if v.isNull then (none, st₁) else (some v, st₁)
      | none => (none, st₁)
    else (none, st)

/-- Model of `UnifiedThumbnailCache.get_thumbnail` (lines 162-215). -/
def get_thumbnail (env : Env) (st : UCState) (p : String) (size : Nat × Nat)
    (now : Nat) : Option Pix × UCState :=
  if p = "" ∨ env.srcExists p = false then (none, st)
  else
    let cache_key := make_cache_key env p size
    match dGet st.memory_cache cache_key with
    | some v =>
      let st₁ := { st with access_order := update_access_order st.access_order cache_key }
      let st₂ := update_db_access_time st₁ p size now
      (some v, { st₂ with hits := st₂.hits + 1 })
    | none =>
      match load_from_disk st p size now with
      | (some v, st₁) =>
        let st₂ := add_to_memory_cache st₁ cache_key v
        (some v, { st₂ with hits := st₂.hits + 1 })
      | (none, st₁) => (none, { st₁ with misses := st₁.misses + 1 })

/-- Total recorded file size, `SELECT SUM(file_size) FROM thumbnails`. -/
def dbSize (db : List Row) : Nat := (db.map Row.file_size).sum

/-- `ORDER BY last_accessed ASC`; ties are returned in rowid order, modelling
SQLite's scan order. -/
def rowLE (a b : Row) : Prop :=
  a.last_accessed < b.last_accessed ∨
    (a.last_accessed = b.last_accessed ∧ a.rid ≤ b.rid)

instance : DecidableRel rowLE := fun a b => by unfold rowLE; infer_instance

instance : IsTotal Row rowLE := ⟨by intro a b; unfold rowLE; omega⟩

instance : IsTrans Row rowLE := ⟨by intro a b c; unfold rowLE; omega⟩

/-- The cleanup's working list: the table sorted by `last_accessed` ascending. -/
def sortRows (db : List Row) : List Row := List.insertionSort rowLE db

/-- Deleting one cache entry everywhere: its PNG file, its memory entry and
LRU slot when present, and its table row — the loop body shared by
`_cleanup_disk_cache` (lines 801-825) and `purge_invalid_entries`
(lines 508-525). -/
def deleteRowEverywhere (st : UCState) (r : Row) : UCState :=
  let st₁ := { st with files := dDel st.files r.cache_path }
  let st₂ :=
    if r.cache_key ∈ dKeys st₁.memory_cache then
      { st₁ with
        memory_cache := dDel st₁.memory_cache r.cache_key
        access_order := st₁.access_order.erase r.cache_key }
    else st₁
  { st₂ with db := st₂.db.filter (fun x => x.rid ≠ r.rid) }

/-- The deletion loop of `_cleanup_disk_cache`: walk the sorted snapshot,
stopping as soon as the running total is at most 80 % of the limit
(`current_size <= disk_cache_limit * 0.8`, embedded as
`5 * cur <= 4 * disk_cache_limit`). -/
def cleanupIter (targetX : Int) : List Row → Int → UCState → UCState
  | [], _, st => st
  | r :: rs, cur, st =>
    if 5 * cur ≤ targetX then st
    else cleanupIter targetX rs (cur - (r.file_size : Int)) (deleteRowEverywhere st r)

/-- Model of `UnifiedThumbnailCache._cleanup_disk_cache` (lines 761-848). -/
def cleanup_disk_cache (st : UCState) : Bool × UCState :=
  let current := (dbSize st.db : Int)
  if 5 * current ≤ 4 * (st.disk_cache_limit : Int) then (false, st)
  else
    (true, cleanupIter (4 * (st.disk_cache_limit : Int)) (sortRows st.db) current st)

/-- Model of `UnifiedThumbnailCache._cleanup_disk_cache_if_needed`
(lines 728-759): clean only when the recorded total strictly exceeds the
limit. -/
def cleanup_disk_cache_if_needed (st : UCState) : Bool × UCState :=
  if st.disk_cache_limit < dbSize st.db then cleanup_disk_cache st else (false, st)

/-- Model of `UnifiedThumbnailCache.store_thumbnail` (lines 217-257). -/
def store_thumbnail (env : Env) (st : UCState) (p : String) (size : Nat × Nat)
    (v : Pix) (now : Nat) : Bool × UCState :=
  if p = "" ∨ v.isNull then (false, st)
  else
    let cache_key := make_cache_key env p size
    let st₁ := add_to_memory_cache st cache_key v
    match save_to_disk st₁ p size v cache_key now with
    | (true, st₂) =>
      let st₃ := { st₂ with writes := st₂.writes + 1 }
      (true, (cleanup_disk_cache_if_needed st₃).2)
    | (false, st₂) => (false, st₂)

/-- Model of `UnifiedThumbnailCache.clear` (lines 259-329). -/
def clearCache (st : UCState) (clear_disk : Bool) : UCState :=
  let st₁ := { st with memory_cache := [], access_order := [] }
  let st₂ :=
    if clear_disk then
      { st₁ with
        files := st₁.files.filter (fun f => f.1 ∉ st₁.db.map Row.cache_path)
        db := [] }
    else st₁
  { st₂ with hits := 0, misses := 0, writes := 0 }

/-- A row is invalid when its source image or its backing file is gone
(`purge_invalid_entries`, lines 496-503). -/
def rowInvalid (env : Env) (st : UCState) (r : Row) : Bool :=
  !(env.srcExists r.image_path) || !(decide (r.cache_path ∈ dKeys st.files))

/-- Model of `UnifiedThumbnailCache.purge_invalid_entries` (lines 483-540):
collect the invalid rows from a snapshot, then delete each everywhere. -/
def purge_invalid_entries (env : Env) (st : UCState) : Nat × UCState :=
  let invalid := st.db.filter (rowInvalid env st)
  (invalid.length, invalid.foldl (fun s r => deleteRowEverywhere s r) st)

/-- The LRU-shrink loop of `cleanup_memory_if_needed` (lines 454-463): pop
the oldest key `n` times, deleting it from the memory dict when present. -/
def popOldestPair : Nat → Dict Pix → List String → Dict Pix × List String
  | 0, m, ao => (m, ao)
  | _ + 1, m, [] => (m, [])
  | n + 1, m, oldest :: rest =>
    popOldestPair n (if oldest ∈ dKeys m then dDel m oldest else m) rest

/-- Model of `UnifiedThumbnailCache.cleanup_memory_if_needed` (lines 422-481):
purge invalid entries, then shrink the memory tier from above 80 % of the
limit down to 70 % (`int(limit * 0.8)` and `int(limit * 0.7)` embedded as
truncating divisions), else fall through to the disk check. -/
def cleanup_memory_if_needed (env : Env) (st : UCState) : Bool × UCState :=
  let st₁ := (purge_invalid_entries env st).2
  let memory_usage := st₁.memory_cache.length
  let threshold := (8 * st₁.memory_limit) / 10
  if threshold < memory_usage then
    let target_size := (7 * st₁.memory_limit) / 10
    let ma := popOldestPair (memory_usage - target_size) st₁.memory_cache st₁.access_order
    (true, { st₁ with memory_cache := ma.1, access_order := ma.2 })
  else
    cleanup_disk_cache_if_needed st₁

/-! ## Memory-tier consistency (C10) -/

/-- The consistency invariant as claimed: each key present in `memory_cache`
occurs exactly once in `access_order`, and `access_order` contains no key
absent from `memory_cache`; the dict itself is key-unique (Python dicts are). -/
def consistentCache (st : UCState) : Prop :=
  (dKeys st.memory_cache).Nodup ∧
  (∀ k ∈ dKeys st.memory_cache, st.access_order.count k = 1) ∧
  (∀ k ∈ st.access_order, k ∈ dKeys st.memory_cache)

instance (st : UCState) : Decidable (consistentCache st) := by
  unfold consistentCache
  infer_instance

/-- Working form of the invariant: nodup on both sides plus membership
equivalence. -/
def MemOK (m : Dict Pix) (ao : List String) : Prop :=
  (dKeys m).Nodup ∧ ao.Nodup ∧ ∀ k, k ∈ ao ↔ k ∈ dKeys m

theorem consistentCache_iff (st : UCState) :
    consistentCache st ↔ MemOK st.memory_cache st.access_order := by
  constructor
  · rintro ⟨hkn, hcnt, hsub⟩
    refine ⟨hkn, ?_, ?_⟩
    · rw [List.nodup_iff_count_le_one]
      intro a
      by_cases ha : a ∈ st.access_order
      · rw [hcnt a (hsub a ha)]
      · rw [List.count_eq_zero.mpr ha]
        omega
    · intro k
      constructor
      · exact hsub k
      · intro hk
        have := hcnt k hk
        exact List.count_pos_iff.mp (by omega)
  · rintro ⟨hkn, haon, hiff⟩
    exact ⟨hkn, fun k hk => List.count_eq_one_of_mem haon ((hiff k).mpr hk),
      fun k hk => (hiff k).mp hk⟩

theorem memOK_congr {m₁ m₂ : Dict Pix} {ao : List String}
    (hkeys : dKeys m₁ = dKeys m₂) (h : MemOK m₁ ao) : MemOK m₂ ao := by
  rw [MemOK, ← hkeys]
  exact h

theorem memOK_length_eq {m : Dict Pix} {ao : List String} (h : MemOK m ao) :
    ao.length = m.length := by
  obtain ⟨hkn, haon, hiff⟩ := h
  have hperm : ao.Perm (dKeys m) := (List.perm_ext_iff_of_nodup haon hkn).mpr hiff
  rw [hperm.length_eq, dKeys, List.length_map]

theorem memOK_update_access_order {m : Dict Pix} {ao : List String} {k : String}
    (h : MemOK m ao) (hk : k ∈ dKeys m) : MemOK m (update_access_order ao k) := by
  obtain ⟨hkn, haon, hiff⟩ := h
  refine ⟨hkn, ?_, ?_⟩
  · rw [update_access_order, List.nodup_append]
    refine ⟨haon.erase k, List.nodup_singleton _, ?_⟩
    intro x hx hxk
    rw [List.mem_singleton] at hxk
    subst hxk
    exact ((haon.mem_erase_iff).mp hx).1 rfl
  · intro x
    rw [update_access_order, List.mem_append, List.mem_singleton]
    constructor
    · rintro (hx | rfl)
      · exact (hiff x).mp (List.mem_of_mem_erase hx)
      · exact hk
    · intro hx
      by_cases hxk : x = k
      · right; exact hxk
      · left
        exact (List.mem_erase_of_ne hxk).mpr ((hiff x).mpr hx)

theorem memOK_insert {m : Dict Pix} {ao : List String} (k : String) (v : Pix)
    (h : MemOK m ao) : MemOK (dSet m k v) (update_access_order ao k) := by
  by_cases hk : k ∈ dKeys m
  · exact memOK_congr (dKeys_dSet_of_mem v hk).symm (memOK_update_access_order h hk)
  · obtain ⟨hkn, haon, hiff⟩ := h
    have hknotao : k ∉ ao := fun hmem => hk ((hiff k).mp hmem)
    refine ⟨?_, ?_, ?_⟩
    · rw [dKeys_dSet_of_not_mem v hk, List.nodup_append]
      exact ⟨hkn, List.nodup_singleton _,
        fun x hx hxk => hk ((List.mem_singleton.mp hxk) ▸ hx)⟩
    · rw [update_access_order, List.erase_of_not_mem hknotao, List.nodup_append]
      exact ⟨haon, List.nodup_singleton _,
        fun x hx hxk => hknotao ((List.mem_singleton.mp hxk) ▸ hx)⟩
    · intro x
      rw [update_access_order, List.erase_of_not_mem hknotao,
        dKeys_dSet_of_not_mem v hk, List.mem_append, List.mem_append]
      rw [hiff x]

theorem memOK_evict {m : Dict Pix} {oldest : String} {rest : List String}
    (h : MemOK m (oldest :: rest)) : MemOK (dDel m oldest) rest := by
  obtain ⟨hkn, haon, hiff⟩ := h
  have hnr : oldest ∉ rest := (List.nodup_cons.mp haon).1
  refine ⟨dKeys_dDel_nodup _ hkn, (List.nodup_cons.mp haon).2, ?_⟩
  intro x
  rw [mem_dKeys_dDel]
  constructor
  · intro hx
    refine ⟨(hiff x).mp (List.mem_cons_of_mem _ hx), ?_⟩
    rintro rfl
    exact hnr hx
  · rintro ⟨hx, hne⟩
    rcases List.mem_cons.mp ((hiff x).mpr hx) with heq | hmem
    · exact absurd heq hne
    · exact hmem

theorem memOK_add (st : UCState) (k : String) (v : Pix)
    (h : MemOK st.memory_cache st.access_order) :
    MemOK (add_to_memory_cache st k v).memory_cache
      (add_to_memory_cache st k v).access_order := by
  rw [add_to_memory_cache]
  by_cases hcond : st.memory_limit ≤ st.memory_cache.length ∧
      k ∉ dKeys st.memory_cache
  · simp only [if_pos hcond]
    cases hao : st.access_order with
    | nil =>
      exact memOK_insert k v h
    | cons oldest rest =>
      have h' : MemOK st.memory_cache (oldest :: rest) := by rw [← hao]; exact h
      have ho : oldest ∈ dKeys st.memory_cache := (h'.2.2 oldest).mp (by simp)
      simp only [if_pos ho]
      exact memOK_insert k v (memOK_evict h')
  · simp only [if_neg hcond]
    exact memOK_insert k v h

theorem memOK_deleteRow (st : UCState) (r : Row)
    (h : MemOK st.memory_cache st.access_order) :
    MemOK (deleteRowEverywhere st r).memory_cache
      (deleteRowEverywhere st r).access_order := by
  rw [deleteRowEverywhere]
  by_cases hk : r.cache_key ∈ dKeys st.memory_cache
  · simp only [if_pos (show r.cache_key ∈
      dKeys ({ st with files := dDel st.files r.cache_path }).memory_cache from hk)]
    obtain ⟨hkn, haon, hiff⟩ := h
    refine ⟨dKeys_dDel_nodup _ hkn, haon.erase _, ?_⟩
    intro x
    rw [mem_dKeys_dDel, haon.mem_erase_iff, hiff x]
    tauto
  · simp only [if_neg (show r.cache_key ∉
      dKeys ({ st with files := dDel st.files r.cache_path }).memory_cache from hk)]
    exact h

theorem memOK_popOldestPair (n : Nat) :
    ∀ (m : Dict Pix) (ao : List String), MemOK m ao →
      MemOK (popOldestPair n m ao).1 (popOldestPair n m ao).2 := by
  induction n with
  | zero => intro m ao h; exact h
  | succ n ih =>
    intro m ao h
    cases ao with
    | nil => rw [popOldestPair]; exact h
    | cons oldest rest =>
      rw [popOldestPair]
      have ho : oldest ∈ dKeys m := (h.2.2 oldest).mp (by simp)
      rw [if_pos ho]
      exact ih _ _ (memOK_evict h)

theorem cleanupIter_memOK (targetX : Int) (l : List Row) :
    ∀ (cur : Int) (st : UCState), MemOK st.memory_cache st.access_order →
      MemOK (cleanupIter targetX l cur st).memory_cache
        (cleanupIter targetX l cur st).access_order := by
  induction l with
  | nil => intro cur st h; exact h
  | cons r rs ih =>
    intro cur st h
    rw [cleanupIter]
    by_cases hc : 5 * cur ≤ targetX
    · simpa only [if_pos hc] using h
    · simp only [if_neg hc]
      exact ih _ _ (memOK_deleteRow st r h)

theorem cleanup_disk_cache_memOK (st : UCState)
    (h : MemOK st.memory_cache st.access_order) :
    MemOK (cleanup_disk_cache st).2.memory_cache
      (cleanup_disk_cache st).2.access_order := by
  rw [cleanup_disk_cache]
  by_cases hc : 5 * (dbSize st.db : Int) ≤ 4 * (st.disk_cache_limit : Int)
  · simpa only [if_pos hc] using h
  · simp only [if_neg hc]
    exact cleanupIter_memOK _ _ _ _ h

theorem cleanup_disk_cache_if_needed_memOK (st : UCState)
    (h : MemOK st.memory_cache st.access_order) :
    MemOK (cleanup_disk_cache_if_needed st).2.memory_cache
      (cleanup_disk_cache_if_needed st).2.access_order := by
  rw [cleanup_disk_cache_if_needed]
  by_cases hc : st.disk_cache_limit < dbSize st.db
  · simp only [if_pos hc]
    exact cleanup_disk_cache_memOK st h
  · simpa only [if_neg hc] using h

theorem purge_memOK (env : Env) (st : UCState)
    (h : MemOK st.memory_cache st.access_order) :
    MemOK (purge_invalid_entries env st).2.memory_cache
      (purge_invalid_entries env st).2.access_order := by
  rw [purge_invalid_entries]
  have hfold : ∀ (rows : List Row) (s : UCState),
      MemOK s.memory_cache s.access_order →
      MemOK (rows.foldl (fun s r => deleteRowEverywhere s r) s).memory_cache
        (rows.foldl (fun s r => deleteRowEverywhere s r) s).access_order := by
    intro rows
    induction rows with
    | nil => intro s hs; exact hs
    | cons r rs ih => intro s hs; exact ih _ (memOK_deleteRow s r hs)
  exact hfold _ st h

theorem load_from_disk_memory (st : UCState) (p : String) (size : Nat × Nat)
    (now : Nat) :
    (load_from_disk st p size now).2.memory_cache = st.memory_cache ∧
    (load_from_disk st p size now).2.access_order = st.access_order := by
  rw [load_from_disk]
  cases dbFind st.db p size.1 size.2 with
  | none => constructor <;> trivial
  | some r =>
    by_cases hf : r.cache_path ∈ dKeys st.files
    · simp only [if_pos hf]
      cases dGet st.files r.cache_path with
      | none => constructor <;> trivial
      | some v =>
        by_cases hv : v.isNull
        · simp only [if_pos hv]
          constructor <;> trivial
        · simp only [if_neg hv]
          constructor <;> trivial
    · simp only [if_neg hf]
      constructor <;> trivial

theorem save_to_disk_memory (st : UCState) (p : String) (size : Nat × Nat)
    (v : Pix) (cache_key : String) (now : Nat) :
    (save_to_disk st p size v cache_key now).2.memory_cache = st.memory_cache ∧
    (save_to_disk st p size v cache_key now).2.access_order = st.access_order := by
  rw [save_to_disk]
  by_cases hv : v.isNull
  · simp only [if_pos hv]
    constructor <;> trivial
  · simp only [if_neg hv]
    cases dbFind ({ st with files := dSet st.files (get_disk_cache_path p size) v }).db
        p size.1 size.2 with
    | none => constructor <;> trivial
    | some _ => constructor <;> trivial

theorem memOK_get (env : Env) (st : UCState) (p : String) (size : Nat × Nat)
    (now : Nat) (h : MemOK st.memory_cache st.access_order) :
    MemOK (get_thumbnail env st p size now).2.memory_cache
      (get_thumbnail env st p size now).2.access_order := by
  rw [get_thumbnail]
  by_cases hpre : p = "" ∨ env.srcExists p = false
  · simpa only [if_pos hpre] using h
  · simp only [if_neg hpre]
    cases hget : dGet st.memory_cache (make_cache_key env p size) with
    | some v =>
      simp only []
      exact memOK_update_access_order h (dGet_some_mem_dKeys hget)
    | none =>
      simp only []
      rcases hload : load_from_disk st p size now with ⟨res, st₁⟩
      have hmem : st₁.memory_cache = st.memory_cache ∧
          st₁.access_order = st.access_order := by
        have := load_from_disk_memory st p size now
        rw [hload] at this
        exact this
      cases res with
      | some v =>
        simp only []
        exact memOK_add st₁ _ v (by rw [hmem.1, hmem.2]; exact h)
      | none =>
        simpa only [] using (by rw [hmem.1, hmem.2]; exact h :
          MemOK st₁.memory_cache st₁.access_order)

theorem memOK_store (env : Env) (st : UCState) (p : String) (size : Nat × Nat)
    (v : Pix) (now : Nat) (h : MemOK st.memory_cache st.access_order) :
    MemOK (store_thumbnail env st p size v now).2.memory_cache
      (store_thumbnail env st p size v now).2.access_order := by
  rw [store_thumbnail]
  by_cases hpre : p = "" ∨ v.isNull
  · simpa only [if_pos hpre] using h
  · simp only [if_neg hpre]
    have h₁ := memOK_add st (make_cache_key env p size) v h
    rcases hsave : save_to_disk (add_to_memory_cache st (make_cache_key env p size) v)
        p size v (make_cache_key env p size) now with ⟨ok, st₂⟩
    have hmem : st₂.memory_cache =
        (add_to_memory_cache st (make_cache_key env p size) v).memory_cache ∧
        st₂.access_order =
        (add_to_memory_cache st (make_cache_key env p size) v).access_order := by
      have := save_to_disk_memory
        (add_to_memory_cache st (make_cache_key env p size) v) p size v
        (make_cache_key env p size) now
      rw [hsave] at this
      exact this
    have h₂ : MemOK st₂.memory_cache st₂.access_order := by
      rw [hmem.1, hmem.2]; exact h₁
    cases ok with
    | true =>
      simp only []
      exact cleanup_disk_cache_if_needed_memOK { st₂ with writes := st₂.writes + 1 } h₂
    | false =>
      simpa only [] using h₂

theorem memOK_clear (st : UCState) (cd : Bool) :
    MemOK (clearCache st cd).memory_cache (clearCache st cd).access_order := by
  have hmm : (clearCache st cd).memory_cache = [] := by
    rw [clearCache]; cases cd <;> simp
  have hao : (clearCache st cd).access_order = [] := by
    rw [clearCache]; cases cd <;> simp
  rw [hmm, hao]
  exact ⟨List.nodup_nil, List.nodup_nil, by simp [dKeys]⟩

theorem memOK_cleanup_memory (env : Env) (st : UCState)
    (h : MemOK st.memory_cache st.access_order) :
    MemOK (cleanup_memory_if_needed env st).2.memory_cache
      (cleanup_memory_if_needed env st).2.access_order := by
  rw [cleanup_memory_if_needed]
  have h₁ := purge_memOK env st h
  by_cases hc : (8 * (purge_invalid_entries env st).2.memory_limit) / 10 <
      (purge_invalid_entries env st).2.memory_cache.length
  · simp only [if_pos hc]
    exact memOK_popOldestPair _ _ _ h₁
  · simp only [if_neg hc]
    exact cleanup_disk_cache_if_needed_memOK _ h₁

/-- C10, confirmed: every public cache operation — `get_thumbnail`,
`store_thumbnail`, `clear`, the periodic `cleanup_memory_if_needed`,
`purge_invalid_entries`, and the disk cleanup — preserves the consistency
invariant between the memory dict and the LRU list: each key of
`memory_cache` occurs exactly once in `access_order` and `access_order` holds
no key absent from `memory_cache`. -/
theorem c10_memory_lru_consistency (env : Env) (st : UCState) (p : String)
    (size : Nat × Nat) (v : Pix) (now : Nat) (cd : Bool)
    (h : consistentCache st) :
    consistentCache (get_thumbnail env st p size now).2 ∧
    consistentCache (store_thumbnail env st p size v now).2 ∧
    consistentCache (clearCache st cd) ∧
    consistentCache (cleanup_memory_if_needed env st).2 ∧
    consistentCache (purge_invalid_entries env st).2 ∧
    consistentCache (cleanup_disk_cache st).2 := by
  rw [consistentCache_iff] at h
  refine ⟨?_, ?_, ?_, ?_, ?_, ?_⟩ <;> rw [consistentCache_iff]
  · exact memOK_get env st p size now h
  · exact memOK_store env st p size v now h
  · exact memOK_clear st cd
  · exact memOK_cleanup_memory env st h
  · exact purge_memOK env st h
  · exact cleanup_disk_cache_memOK st h

/-- C10 witness: a small concrete cache state run through every operation. -/
theorem c10_memory_lru_consistency_witness :
    consistentCache (get_thumbnail ⟨fun _ => true, fun _ => 0⟩
      (initUC 2 1000) "a.png" (10, 10) 1).2 := by
  have h := c10_memory_lru_consistency ⟨fun _ => true, fun _ => 0⟩
    (initUC 2 1000) "a.png" (10, 10) ⟨false, 3, 7⟩ 1 true (by decide)
  exact h.1

/-! ## Memory LRU bound (C2) -/

theorem filter_ne_eq_erase {l : List String} (hnd : l.Nodup) (a : String) :
    l.filter (fun s => s ≠ a) = l.erase a := by
  rw [hnd.erase_eq_filter]
  apply List.filter_congr
  intro x _
  by_cases hx : x = a <;> simp [hx]

theorem add_to_memory_cache_length_le (st : UCState) (k : String) (v : Pix)
    (h : MemOK st.memory_cache st.access_order)
    (hlen : st.memory_cache.length ≤ st.memory_limit)
    (hL : 1 ≤ st.memory_limit) :
    (add_to_memory_cache st k v).memory_cache.length ≤ st.memory_limit := by
  rw [add_to_memory_cache]
  by_cases hcond : st.memory_limit ≤ st.memory_cache.length ∧
      k ∉ dKeys st.memory_cache
  · simp only [if_pos hcond]
    cases hao : st.access_order with
    | nil =>
      exfalso
      have hlen0 : st.memory_cache.length = 0 := by
        have := memOK_length_eq h
        rw [hao] at this
        simpa using this.symm
      omega
    | cons oldest rest =>
      have h' : MemOK st.memory_cache (oldest :: rest) := by rw [← hao]; exact h
      have ho : oldest ∈ dKeys st.memory_cache := (h'.2.2 oldest).mp (by simp)
      simp only [if_pos ho]
      show (dSet (dDel st.memory_cache oldest) k v).length ≤ st.memory_limit
      have hk' : k ∉ dKeys (dDel st.memory_cache oldest) := by
        intro hmem
        exact hcond.2 (mem_dKeys_dDel.mp hmem).1
      rw [length_dSet_of_not_mem v hk']
      have hdel := length_dDel_of_mem h.1 ho
      omega
  · simp only [if_neg hcond]
    show (dSet st.memory_cache k v).length ≤ st.memory_limit
    by_cases hk : k ∈ dKeys st.memory_cache
    · rw [length_dSet_of_mem v hk]
      exact hlen
    · rw [length_dSet_of_not_mem v hk]
      have hlt : st.memory_cache.length < st.memory_limit := by
        by_contra hge
        exact hcond ⟨by omega, hk⟩
      omega

theorem add_to_memory_cache_limit (st : UCState) (k : String) (v : Pix) :
    (add_to_memory_cache st k v).memory_limit = st.memory_limit := by
  rw [add_to_memory_cache]
  by_cases hcond : st.memory_limit ≤ st.memory_cache.length ∧
      k ∉ dKeys st.memory_cache
  · simp only [if_pos hcond]
    cases hao : st.access_order with
    | nil => rfl
    | cons oldest rest =>
      by_cases ho : oldest ∈ dKeys st.memory_cache
      · simp only [if_pos ho]
      · simp only [if_neg ho]
  · simp only [if_neg hcond]

theorem save_to_disk_limit (st : UCState) (p : String) (size : Nat × Nat)
    (v : Pix) (cache_key : String) (now : Nat) :
    (save_to_disk st p size v cache_key now).2.memory_limit = st.memory_limit := by
  rw [save_to_disk]
  by_cases hv : v.isNull
  · simp only [if_pos hv]
  · simp only [if_neg hv]
    cases dbFind ({ st with files := dSet st.files (get_disk_cache_path p size) v }).db
        p size.1 size.2 with
    | none => rfl
    | some _ => rfl

theorem deleteRow_memory_length_le (st : UCState) (r : Row) :
    (deleteRowEverywhere st r).memory_cache.length ≤ st.memory_cache.length := by
  rw [deleteRowEverywhere]
  by_cases hk : r.cache_key ∈
      dKeys ({ st with files := dDel st.files r.cache_path } : UCState).memory_cache
  · simp only [if_pos hk]
    exact List.length_filter_le _ _
  · simp only [if_neg hk]
    exact le_rfl

theorem deleteRow_memory_limit (st : UCState) (r : Row) :
    (deleteRowEverywhere st r).memory_limit = st.memory_limit := by
  rw [deleteRowEverywhere]
  by_cases hk : r.cache_key ∈
      dKeys ({ st with files := dDel st.files r.cache_path } : UCState).memory_cache
  · simp only [if_pos hk]
  · simp only [if_neg hk]

theorem cleanupIter_memory_length_le (targetX : Int) (l : List Row) :
    ∀ (cur : Int) (st : UCState),
      (cleanupIter targetX l cur st).memory_cache.length ≤ st.memory_cache.length := by
  induction l with
  | nil => intro cur st; exact le_rfl
  | cons r rs ih =>
    intro cur st
    rw [cleanupIter]
    by_cases hc : 5 * cur ≤ targetX
    · simp only [if_pos hc]
      exact le_rfl
    · simp only [if_neg hc]
      exact le_trans (ih _ _) (deleteRow_memory_length_le st r)

theorem cleanupIter_memory_limit (targetX : Int) (l : List Row) :
    ∀ (cur : Int) (st : UCState),
      (cleanupIter targetX l cur st).memory_limit = st.memory_limit := by
  induction l with
  | nil => intro cur st; rfl
  | cons r rs ih =>
    intro cur st
    rw [cleanupIter]
    by_cases hc : 5 * cur ≤ targetX
    · simp only [if_pos hc]
    · simp only [if_neg hc]
      rw [ih, deleteRow_memory_limit]

theorem cleanup_if_needed_memory_length_le (st : UCState) :
    (cleanup_disk_cache_if_needed st).2.memory_cache.length ≤
      st.memory_cache.length := by
  rw [cleanup_disk_cache_if_needed]
  by_cases hc : st.disk_cache_limit < dbSize st.db
  · simp only [if_pos hc]
    rw [cleanup_disk_cache]
    by_cases hc2 : 5 * (dbSize st.db : Int) ≤ 4 * (st.disk_cache_limit : Int)
    · simp only [if_pos hc2]
      exact le_rfl
    · simp only [if_neg hc2]
      exact cleanupIter_memory_length_le _ _ _ _
  · simp only [if_neg hc]
    exact le_rfl

theorem cleanup_if_needed_memory_limit (st : UCState) :
    (cleanup_disk_cache_if_needed st).2.memory_limit = st.memory_limit := by
  rw [cleanup_disk_cache_if_needed]
  by_cases hc : st.disk_cache_limit < dbSize st.db
  · simp only [if_pos hc]
    rw [cleanup_disk_cache]
    by_cases hc2 : 5 * (dbSize st.db : Int) ≤ 4 * (st.disk_cache_limit : Int)
    · simp only [if_pos hc2]
    · simp only [if_neg hc2]
      exact cleanupIter_memory_limit _ _ _ _
  · simp only [if_neg hc]

/-- A memory tier that satisfies the invariant and the size bound. -/
def GoodMem (st : UCState) : Prop :=
  MemOK st.memory_cache st.access_order ∧
  st.memory_cache.length ≤ st.memory_limit

theorem store_preserves_good (env : Env) (st : UCState) (p : String)
    (size : Nat × Nat) (v : Pix) (now : Nat) (h : GoodMem st)
    (hL : 1 ≤ st.memory_limit) :
    GoodMem (store_thumbnail env st p size v now).2 ∧
    (store_thumbnail env st p size v now).2.memory_limit = st.memory_limit := by
  obtain ⟨hok, hlen⟩ := h
  have hmemOK := memOK_store env st p size v now hok
  rw [store_thumbnail] at hmemOK ⊢
  by_cases hpre : p = "" ∨ v.isNull
  · simp only [if_pos hpre] at hmemOK ⊢
    exact ⟨⟨hok, hlen⟩, by trivial⟩
  · simp only [if_neg hpre] at hmemOK ⊢
    have haddlen := add_to_memory_cache_length_le st (make_cache_key env p size) v
      hok hlen hL
    have haddlim := add_to_memory_cache_limit st (make_cache_key env p size) v
    rcases hsave : save_to_disk (add_to_memory_cache st (make_cache_key env p size) v)
        p size v (make_cache_key env p size) now with ⟨ok, st₂⟩
    have hsmem := save_to_disk_memory
      (add_to_memory_cache st (make_cache_key env p size) v) p size v
      (make_cache_key env p size) now
    have hslim := save_to_disk_limit
      (add_to_memory_cache st (make_cache_key env p size) v) p size v
      (make_cache_key env p size) now
    rw [hsave] at hsmem hslim hmemOK
    have hst₂len : st₂.memory_cache.length ≤ st.memory_limit := by
      rw [hsmem.1]
      exact haddlen
    have hst₂lim : st₂.memory_limit = st.memory_limit := by rw [hslim, haddlim]
    cases ok with
    | true =>
      simp only [] at hmemOK ⊢
      refine ⟨⟨hmemOK, ?_⟩, ?_⟩
      · rw [cleanup_if_needed_memory_limit]
        refine le_trans (cleanup_if_needed_memory_length_le _) ?_
        show st₂.memory_cache.length ≤ st₂.memory_limit
        rw [hst₂lim]
        exact hst₂len
      · rw [cleanup_if_needed_memory_limit]
        show st₂.memory_limit = st.memory_limit
        exact hst₂lim
    | false =>
      simp only [] at hmemOK ⊢
      refine ⟨⟨hmemOK, ?_⟩, hst₂lim⟩
      rw [hst₂lim]
      exact hst₂len

/-- One `store_thumbnail` request: source path, target size, pixmap, and the
wall-clock second at which it runs. -/
structure StoreCall where
  path : String
  size : Nat × Nat
  pix : Pix
  now : Nat
deriving DecidableEq, Repr

/-- Run a sequence of `store_thumbnail` calls. -/
def runStores (env : Env) (st : UCState) : List StoreCall → UCState
  | [] => st
  | c :: cs => runStores env (store_thumbnail env st c.path c.size c.pix c.now).2 cs

theorem initUC_good (L D : Nat) : GoodMem (initUC L D) := by
  refine ⟨⟨?_, ?_, ?_⟩, ?_⟩ <;> simp [initUC, dKeys]

theorem runStores_good (env : Env) (calls : List StoreCall) :
    ∀ st : UCState, GoodMem st → 1 ≤ st.memory_limit →
      GoodMem (runStores env st calls) ∧
      (runStores env st calls).memory_limit = st.memory_limit := by
  induction calls with
  | nil => intro st h _; exact ⟨h, rfl⟩
  | cons c cs ih =>
    intro st h hL
    rw [runStores]
    have hstep := store_preserves_good env st c.path c.size c.pix c.now h hL
    have hrest := ih _ hstep.1 (by rw [hstep.2]; exact hL)
    exact ⟨hrest.1, by rw [hrest.2, hstep.2]⟩

/-- C2, confirmed: starting from an empty cache with memory limit `L >= 1`,
after every prefix of any sequence of `store_thumbnail` calls the in-memory
dict holds at most `L` entries; and whenever a call inserts a new key while
the dict is at capacity, the insertion step evicts exactly the
least-recently-used key — the head of `access_order` — before appending the
new key. -/
theorem c2_memory_lru_bound (L D : Nat) (hL : 1 ≤ L) (env : Env)
    (calls : List StoreCall) :
    (∀ n : Nat,
      (runStores env (initUC L D) (calls.take n)).memory_cache.length ≤ L) ∧
    (∀ (n : Nat) (c : StoreCall), calls[n]? = some c →
      (runStores env (initUC L D) (calls.take n)).memory_cache.length = L →
      make_cache_key env c.path c.size ∉
        dKeys (runStores env (initUC L D) (calls.take n)).memory_cache →
      ∃ lru rest,
        (runStores env (initUC L D) (calls.take n)).access_order = lru :: rest ∧
        dKeys (add_to_memory_cache (runStores env (initUC L D) (calls.take n))
            (make_cache_key env c.path c.size) c.pix).memory_cache =
          (dKeys (runStores env (initUC L D) (calls.take n)).memory_cache).erase lru
            ++ [make_cache_key env c.path c.size]) := by
  have hinitL : 1 ≤ (initUC L D).memory_limit := hL
  constructor
  · intro n
    have h := runStores_good env (calls.take n) (initUC L D) (initUC_good L D) hinitL
    have := h.1.2
    rw [h.2] at this
    exact this
  · intro n c _ hcap hfresh
    obtain ⟨⟨hok, _⟩, hlim⟩ :=
      runStores_good env (calls.take n) (initUC L D) (initUC_good L D) hinitL
    set st := runStores env (initUC L D) (calls.take n) with hst
    have hlimL : st.memory_limit = L := hlim
    have haolen : st.access_order.length = L := by
      rw [memOK_length_eq hok, hcap]
    cases hao : st.access_order with
    | nil =>
      exfalso
      rw [hao] at haolen
      simp at haolen
      omega
    | cons lru rest =>
      have h' : MemOK st.memory_cache (lru :: rest) := by rw [← hao]; exact hok
      have ho : lru ∈ dKeys st.memory_cache := (h'.2.2 lru).mp (by simp)
      have hcond : st.memory_limit ≤ st.memory_cache.length ∧
          make_cache_key env c.path c.size ∉ dKeys st.memory_cache := by
        constructor
        · rw [hlimL, hcap]
        · exact hfresh
      have hmemeq : (add_to_memory_cache st (make_cache_key env c.path c.size)
          c.pix).memory_cache =
          dSet (dDel st.memory_cache lru) (make_cache_key env c.path c.size) c.pix := by
        rw [add_to_memory_cache, if_pos hcond, hao]
        simp only [if_pos ho]
      refine ⟨lru, rest, rfl, ?_⟩
      rw [hmemeq]
      have hfresh' : make_cache_key env c.path c.size ∉
          dKeys (dDel st.memory_cache lru) := by
        intro hmem
        exact hfresh (mem_dKeys_dDel.mp hmem).1
      rw [dKeys_dSet_of_not_mem _ hfresh', dKeys_dDel,
        filter_ne_eq_erase hok.1 lru]

/-- C2 witness: `L = 1` with two stores under distinct keys. -/
theorem c2_memory_lru_bound_witness :
    (runStores ⟨fun _ => true, fun _ => 0⟩ (initUC 1 1000000)
      (List.take 2 [⟨"a.png", (10, 10), ⟨false, 3, 1⟩, 1⟩,
        ⟨"b.png", (10, 10), ⟨false, 3, 2⟩, 2⟩])).memory_cache.length ≤ 1 ∧
    (∃ lru rest,
      (runStores ⟨fun _ => true, fun _ => 0⟩ (initUC 1 1000000)
        (List.take 1 [⟨"a.png", (10, 10), ⟨false, 3, 1⟩, 1⟩,
          ⟨"b.png", (10, 10), ⟨false, 3, 2⟩, 2⟩])).access_order = lru :: rest ∧
      dKeys (add_to_memory_cache
          (runStores ⟨fun _ => true, fun _ => 0⟩ (initUC 1 1000000)
            (List.take 1 [⟨"a.png", (10, 10), ⟨false, 3, 1⟩, 1⟩,
              ⟨"b.png", (10, 10), ⟨false, 3, 2⟩, 2⟩]))
          (make_cache_key ⟨fun _ => true, fun _ => 0⟩ "b.png" (10, 10))
          ⟨false, 3, 2⟩).memory_cache =
        (dKeys (runStores ⟨fun _ => true, fun _ => 0⟩ (initUC 1 1000000)
            (List.take 1 [⟨"a.png", (10, 10), ⟨false, 3, 1⟩, 1⟩,
              ⟨"b.png", (10, 10), ⟨false, 3, 2⟩, 2⟩])).memory_cache).erase lru
          ++ [make_cache_key ⟨fun _ => true, fun _ => 0⟩ "b.png" (10, 10)]) := by
  constructor
  · exact (c2_memory_lru_bound 1 1000000 (by decide) ⟨fun _ => true, fun _ => 0⟩
      [⟨"a.png", (10, 10), ⟨false, 3, 1⟩, 1⟩,
       ⟨"b.png", (10, 10), ⟨false, 3, 2⟩, 2⟩]).1 2
  · exact (c2_memory_lru_bound 1 1000000 (by decide) ⟨fun _ => true, fun _ => 0⟩
      [⟨"a.png", (10, 10), ⟨false, 3, 1⟩, 1⟩,
       ⟨"b.png", (10, 10), ⟨false, 3, 2⟩, 2⟩]).2 1
      ⟨"b.png", (10, 10), ⟨false, 3, 2⟩, 2⟩ (by decide) (by decide) (by decide)

/-! ## Disk cleanup order and bound (C3) -/

theorem dbSize_perm {l₁ l₂ : List Row} (h : l₁.Perm l₂) : dbSize l₁ = dbSize l₂ := by
  rw [dbSize, dbSize]
  exact (h.map Row.file_size).sum_eq

theorem deleteRow_db (st : UCState) (r : Row) :
    (deleteRowEverywhere st r).db = st.db.filter (fun x => x.rid ≠ r.rid) := by
  rw [deleteRowEverywhere]
  by_cases hk : r.cache_key ∈
      dKeys ({ st with files := dDel st.files r.cache_path } : UCState).memory_cache
  · simp only [if_pos hk]
  · simp only [if_neg hk]

/-- Behaviour of the `_cleanup_disk_cache` deletion loop on an arbitrary
snapshot list: it removes exactly a prefix of the snapshot, stops as soon as
the running total reaches the target, and leaves the recorded total at or
below the target. -/
theorem cleanupIter_spec (targetX : Int) (htX : 0 ≤ targetX) (l : List Row) :
    ∀ (st : UCState) (cur : Int),
      st.db.Perm l → (st.db.map Row.rid).Nodup → cur = (dbSize st.db : Int) →
      ∃ n ≤ l.length,
        (cleanupIter targetX l cur st).db.Perm (l.drop n) ∧
        5 * ((dbSize (cleanupIter targetX l cur st).db : Int)) ≤ targetX ∧
        ∀ m < n, targetX < 5 * (cur - (dbSize (l.take m) : Int)) := by
  induction l with
  | nil =>
    intro st cur hperm _ hcur
    refine ⟨0, le_rfl, ?_, ?_, ?_⟩
    · rw [cleanupIter]
      simpa using hperm
    · rw [cleanupIter]
      have hnil : st.db = [] := hperm.eq_nil
      rw [hnil]
      simpa [dbSize] using htX
    · intro m hm
      omega
  | cons r rs ih =>
    intro st cur hperm hnd hcur
    rw [cleanupIter]
    by_cases hc : 5 * cur ≤ targetX
    · rw [if_pos hc]
      refine ⟨0, by simp, by simpa using hperm, ?_, by intro m hm; omega⟩
      rw [← hcur]
      exact hc
    · rw [if_neg hc]
      have hnd' : ((r :: rs).map Row.rid).Nodup :=
        ((hperm.map Row.rid).nodup_iff).mp hnd
      have hrid_not : r.rid ∉ rs.map Row.rid := by
        simpa using (List.nodup_cons.mp hnd').1
      have hdb' : (deleteRowEverywhere st r).db.Perm rs := by
        rw [deleteRow_db]
        have hfil : (st.db.filter (fun x => x.rid ≠ r.rid)).Perm
            ((r :: rs).filter (fun x => x.rid ≠ r.rid)) := hperm.filter _
        have h0 : ∀ a ∈ rs, a.rid ≠ r.rid := fun a ha hcontra =>
          hrid_not (hcontra ▸ List.mem_map_of_mem Row.rid ha)
        have hred : (r :: rs).filter (fun x => x.rid ≠ r.rid) = rs := by
          rw [List.filter_cons, if_neg (by simp)]
          rw [List.filter_eq_self.mpr (fun a ha => by simpa using h0 a ha)]
        rw [hred] at hfil
        exact hfil
      have hnd'' : ((deleteRowEverywhere st r).db.map Row.rid).Nodup := by
        rw [deleteRow_db]
        exact hnd.sublist ((List.filter_sublist _).map Row.rid)
      have hsize : cur - (r.file_size : Int) =
          (dbSize (deleteRowEverywhere st r).db : Int) := by
        have h1 : dbSize st.db = r.file_size + dbSize rs := by
          rw [dbSize_perm hperm]
          simp [dbSize]
        have h2 : dbSize (deleteRowEverywhere st r).db = dbSize rs := dbSize_perm hdb'
        rw [h2, hcur, h1]
        push_cast
        ring
      obtain ⟨n, hn, hperm', hbound, hmin⟩ :=
        ih (deleteRowEverywhere st r) (cur - (r.file_size : Int)) hdb' hnd'' hsize
      refine ⟨n + 1, by simpa using Nat.succ_le_succ hn, by simpa using hperm',
        hbound, ?_⟩
      intro m hm
      cases m with
      | zero =>
        simpa [dbSize] using (by omega : targetX < 5 * cur)
      | succ m' =>
        have hrec := hmin m' (by omega)
        have htake : dbSize ((r :: rs).take (m' + 1)) =
            r.file_size + dbSize (rs.take m') := by
          simp [dbSize]
        rw [htake]
        push_cast
        push_cast at hrec
        linarith

/-- Environment and calls for the claim's five-entry scenario: sources all
exist, five 300-byte thumbnails are written at seconds 1,2,3,4,5. -/
def envC3 : Env := ⟨fun _ => true, fun _ => 0⟩

/-- The 300-byte thumbnail written for entry `i`. -/
def c3pix (i : Nat) : Pix := ⟨false, 300, i⟩

/-- The first four writes of the scenario (the cleanup fires inside the
fourth). -/
def c3calls : List StoreCall :=
  [⟨"p1", (10, 10), c3pix 1, 1⟩, ⟨"p2", (10, 10), c3pix 2, 2⟩,
   ⟨"p3", (10, 10), c3pix 3, 3⟩, ⟨"p4", (10, 10), c3pix 4, 4⟩]

/-- C3, confirmed: whenever `_cleanup_disk_cache` runs with the recorded total
above `disk_cache_limit`, it deletes a prefix of the entries sorted by
`last_accessed` ascending (oldest access first), stops as soon as the running
total is at most 80 % of the limit, and leaves the recorded total at most
80 % of the limit (`x <= 0.8 * limit` stated as `5 * x <= 4 * limit`).  In
particular, with limit 1000 and four sequential 300-byte writes, the cleanup
fired by the fourth write deletes exactly the two least-recently-accessed
entries, leaving `p3, p4` with total 600 <= 800. -/
theorem c3_disk_cleanup_bound (st : UCState) (hnd : (st.db.map Row.rid).Nodup)
    (hover : st.disk_cache_limit < dbSize st.db) :
    (List.Sorted rowLE (sortRows st.db) ∧
     ∃ n ≤ (sortRows st.db).length,
       (cleanup_disk_cache st).2.db.Perm ((sortRows st.db).drop n) ∧
       5 * dbSize (cleanup_disk_cache st).2.db ≤ 4 * st.disk_cache_limit ∧
       ∀ m < n, 4 * (st.disk_cache_limit : Int) <
         5 * ((dbSize st.db : Int) - (dbSize ((sortRows st.db).take m) : Int))) ∧
    ((runStores envC3 (initUC 100 1000) c3calls).db.map Row.image_path =
        ["p3", "p4"] ∧
     dbSize (runStores envC3 (initUC 100 1000) c3calls).db = 600) := by
  constructor
  · have hcond : ¬ (5 * ((dbSize st.db : Int)) ≤ 4 * (st.disk_cache_limit : Int)) := by
      have : (st.disk_cache_limit : Int) < (dbSize st.db : Int) := by
        exact_mod_cast hover
      omega
    have hperm : st.db.Perm (sortRows st.db) :=
      (List.perm_insertionSort rowLE st.db).symm
    obtain ⟨n, hn, hperm', hbound, hmin⟩ :=
      cleanupIter_spec (4 * (st.disk_cache_limit : Int)) (by positivity)
        (sortRows st.db) st (dbSize st.db : Int) hperm hnd rfl
    refine ⟨List.sorted_insertionSort rowLE st.db, n, hn, ?_, ?_, hmin⟩
    · rw [cleanup_disk_cache, if_neg hcond]
      exact hperm'
    · rw [cleanup_disk_cache, if_neg hcond]
      exact_mod_cast hbound
  · constructor
    · decide
    · decide

/-- A scenario row: 300 bytes, written and last accessed at second `i`. -/
def c3row (i : Nat) : Row :=
  { rid := i
    image_path := "p" ++ natStr i
    width := 10
    height := 10
    cache_path := "f" ++ natStr i
    file_size := 300
    created_at := i
    last_accessed := i
    access_count := 0
    cache_key := "k" ++ natStr i }

/-- The cache right after the fourth 300-byte write, before its cleanup:
1200 recorded bytes against a 1000-byte limit. -/
def c3state : UCState :=
  { initUC 100 1000 with
    db := [c3row 1, c3row 2, c3row 3, c3row 4]
    next_id := 5 }

/-- C3 witness: the over-limit scenario state fed through
`c3_disk_cleanup_bound`. -/
theorem c3_disk_cleanup_bound_witness :
    5 * dbSize (cleanup_disk_cache c3state).2.db ≤ 4 * c3state.disk_cache_limit ∧
    dbSize (runStores envC3 (initUC 100 1000) c3calls).db = 600 := by
  obtain ⟨⟨_, n, _, _, hbound, _⟩, hscen⟩ :=
    c3_disk_cleanup_bound c3state (by decide) (by decide)
  exact ⟨hbound, hscen.2⟩

/-! ## Memory eviction backed by the disk tier (C5) -/

/-- Environment for the `memoryLimit = 2` scenario: sources `A`, `B`, `C`
exist with a fixed modification time. -/
def envABC : Env := ⟨fun p => p == "A" || p == "B" || p == "C", fun _ => 0⟩

/-- The thumbnail stored for `A`. -/
def pixA : Pix := ⟨false, 10, 1⟩

/-- The thumbnail stored for `B`. -/
def pixB : Pix := ⟨false, 10, 2⟩

/-- The thumbnail stored for `C`. -/
def pixC : Pix := ⟨false, 10, 3⟩

/-- The cache after `put(A); put(B); put(C)` with `memoryLimit = 2`. -/
def stABC : UCState :=
  runStores envABC (initUC 2 1000000)
    [⟨"A", (100, 100), pixA, 1⟩, ⟨"B", (100, 100), pixB, 2⟩,
     ⟨"C", (100, 100), pixC, 3⟩]

/-- C5, counterexample: after `put(A); put(B); put(C)` with `memoryLimit = 2`,
`A`'s key has indeed been evicted from the memory dict, but `get(A)` does not
return Miss as claimed: `store_thumbnail` also persisted `A` to the disk tier
and `get_thumbnail` falls back to it, returning the stored value. -/
theorem c5_get_after_eviction_counterexample :
    make_cache_key envABC "A" (100, 100) ∉ dKeys stABC.memory_cache ∧
    (get_thumbnail envABC stABC "A" (100, 100) 4).1 = some pixA := by
  constructor
  · decide
  · decide

/-- C5, amended: with `memoryLimit = 2`, after `put(A); put(B); put(C)` the
key for `A` is no longer in the memory tier (evicted), but a subsequent
`get(A)` returns the value stored for `A`, served from the disk tier and
promoted back into memory; `get(B)` and `get(C)` likewise return their stored
values. -/
theorem c5_get_after_eviction :
    make_cache_key envABC "A" (100, 100) ∉ dKeys stABC.memory_cache ∧
    (get_thumbnail envABC stABC "A" (100, 100) 4).1 = some pixA ∧
    (get_thumbnail envABC (get_thumbnail envABC stABC "A" (100, 100) 4).2
        "B" (100, 100) 5).1 = some pixB ∧
    (get_thumbnail envABC (get_thumbnail envABC (get_thumbnail envABC stABC
        "A" (100, 100) 4).2 "B" (100, 100) 5).2 "C" (100, 100) 6).1 =
      some pixC := by
  refine ⟨by decide, by decide, by decide, by decide⟩

/-! ## Thumbnail generation fallback and the error placeholder (C9)

`UnifiedThumbnailWorker.work` (src/controllers/unified_thumbnail_worker.py,
lines 122-237) with `_determine_best_engine` (239-274) and
`_create_error_placeholder` (514-535).  The external facts — which imaging
libraries are importable, what each backend produces for this input, what the
cache returns — are collected in a `GenEnv` record.  `QPixmap(w, h)` is null
iff a dimension is zero; `setProperty`/`property` on the pixmap is modelled as
the `isErrorPlaceholder` field. -/

/-- The three generation engines. -/
inductive Engine where
  | vips | pil | qt
deriving DecidableEq, Repr

/-- A `QPixmap` as the worker observes it: dimensions, the flat fill colour
(if it was produced by `fill`), and the error-placeholder tag. -/
structure WPix where
  w : Nat
  h : Nat
  fillColor : Option Nat
  isErrorPlaceholder : Bool
deriving DecidableEq, Repr

/-- `QPixmap.isNull()`. -/
def wpixIsNull (p : WPix) : Bool := p.w == 0 || p.h == 0

/-- Abstract colour code for `Qt.GlobalColor.lightGray`. -/
def lightGray : Nat := 1

/-- Model of `UnifiedThumbnailWorker._create_error_placeholder`. -/
def create_error_placeholder (size : Nat × Nat) : WPix :=
  { w := size.1, h := size.2, fillColor := some lightGray, isErrorPlaceholder := true }

/-- Everything external that one `work()` run consults. -/
structure GenEnv where
  image_path : String
  size : Nat × Nat
  has_cache : Bool
  cacheGet : Option WPix
  src_exists : Bool
  has_pil : Bool
  has_vips : Bool
  use_vips : Bool
  fallback_to_qt : Bool
  size_threshold : Nat
  detected_size : Option (Nat × Nat)
  vipsRes : Option WPix
  pilRes : Option WPix
  qtRes : Option WPix
  is_cancelled : Bool

/-- The early cache check succeeds: a cached, non-null thumbnail
(Python truthiness of `thumbnail is not None and not thumbnail.isNull()`). -/
def cacheHitB (e : GenEnv) : Bool :=
  e.has_cache &&
    (match e.cacheGet with
     | some t => !(wpixIsNull t)
     | none => false)

/-- The early cache check succeeds. -/
def cacheHit (e : GenEnv) : Prop := cacheHitB e = true

instance (e : GenEnv) : Decidable (cacheHit e) := by
  unfold cacheHit
  infer_instance

/-- The cached value in the hit case. -/
def cacheVal (e : GenEnv) : WPix := e.cacheGet.getD (create_error_placeholder e.size)

/-- Model of `_determine_best_engine`. -/
def determine_best_engine (e : GenEnv) : Engine :=
  match e.detected_size with
  | none => Engine.qt
  | some wh =>
    if (e.use_vips && e.has_vips) = true ∧ e.size_threshold < max wh.1 wh.2 then
      Engine.vips
    else if e.has_pil = true then Engine.pil
    else if (e.use_vips && e.has_vips) = true then Engine.vips
    else Engine.qt

/-- Running one engine (`_generate_with_vips` / `_generate_with_pil` /
`_generate_with_qt`); the VIPS/PIL bodies return `None` immediately when the
library is absent. -/
def engineRun (e : GenEnv) : Engine → Option WPix
  | Engine.vips => if e.has_vips = true then e.vipsRes else none
  | Engine.pil => if e.has_pil = true then e.pilRes else none
  | Engine.qt => e.qtRes

/-- `pixmap is None or pixmap.isNull()`. -/
def genFailed : Option WPix → Bool
  | none => true
  | some p => wpixIsNull p

/-- The chosen engine's result after the fallback chain of `work`
(lines 184-196). -/
def attemptResult (e : GenEnv) : Option WPix :=
  if genFailed (engineRun e (determine_best_engine e)) = true then
    if determine_best_engine e ≠ Engine.qt ∧ e.fallback_to_qt = true then
      engineRun e Engine.qt
    else if determine_best_engine e ≠ Engine.pil ∧ e.has_pil = true then
      engineRun e Engine.pil
    else engineRun e (determine_best_engine e)
  else engineRun e (determine_best_engine e)

/-- The final pixmap of `work` plus whether `final_engine == "placeholder"`. -/
def finalPix (e : GenEnv) : WPix × Bool :=
  if genFailed (attemptResult e) = true then (create_error_placeholder e.size, true)
  else ((attemptResult e).getD (create_error_placeholder e.size), false)

/-- Model of `UnifiedThumbnailWorker.work`: the returned pair (or a
propagated cancellation), together with the pixmaps passed to
`store_thumbnail`. -/
def workerWork (e : GenEnv) : Except Unit (String × WPix) × List WPix :=
  if e.is_cancelled = true then (Except.error (), [])
  else if cacheHit e then (Except.ok (e.image_path, cacheVal e), [])
  else if e.src_exists = false then
    (Except.ok (e.image_path, create_error_placeholder e.size), [])
  else
    (Except.ok (e.image_path, (finalPix e).1),
     if e.has_cache = true ∧ (finalPix e).2 = false ∧
         (finalPix e).1.isErrorPlaceholder = false then
       [(finalPix e).1]
     else [])

theorem engineRun_failed (e : GenEnv) (hv : genFailed e.vipsRes = true)
    (hp : genFailed e.pilRes = true) (hq : genFailed e.qtRes = true) :
    ∀ eng : Engine, genFailed (engineRun e eng) = true := by
  intro eng
  cases eng with
  | vips =>
    rw [engineRun]
    by_cases h : e.has_vips = true
    · rw [if_pos h]; exact hv
    · rw [if_neg h]; rfl
  | pil =>
    rw [engineRun]
    by_cases h : e.has_pil = true
    · rw [if_pos h]; exact hp
    · rw [if_neg h]; rfl
  | qt => exact hq

theorem attemptResult_failed (e : GenEnv) (hv : genFailed e.vipsRes = true)
    (hp : genFailed e.pilRes = true) (hq : genFailed e.qtRes = true) :
    genFailed (attemptResult e) = true := by
  have hall := engineRun_failed e hv hp hq
  rw [attemptResult, if_pos (hall _)]
  by_cases h1 : determine_best_engine e ≠ Engine.qt ∧ e.fallback_to_qt = true
  · rw [if_pos h1]; exact hall _
  · rw [if_neg h1]
    by_cases h2 : determine_best_engine e ≠ Engine.pil ∧ e.has_pil = true
    · rw [if_pos h2]; exact hall _
    · rw [if_neg h2]; exact hall _

/-- C9, confirmed: `work()` never hands an error placeholder to the cache's
store operation; and on any input where the source exists, the cache does not
already hold the thumbnail, and every generation backend fails, `work()`
still returns (no exception, a non-null pixmap for a positive target size):
the deterministic placeholder of the requested size, flat-filled `lightGray`
and tagged as an error placeholder — and nothing is stored. -/
theorem c9_error_placeholder (e : GenEnv) (hnc : e.is_cancelled = false) :
    (∀ p ∈ (workerWork e).2, p.isErrorPlaceholder = false) ∧
    (¬ cacheHit e → e.src_exists = true →
      genFailed e.vipsRes = true → genFailed e.pilRes = true →
      genFailed e.qtRes = true →
      (workerWork e).1 = Except.ok (e.image_path, create_error_placeholder e.size) ∧
      (create_error_placeholder e.size).isErrorPlaceholder = true ∧
      (create_error_placeholder e.size).w = e.size.1 ∧
      (create_error_placeholder e.size).h = e.size.2 ∧
      (create_error_placeholder e.size).fillColor = some lightGray ∧
      (0 < e.size.1 → 0 < e.size.2 →
        wpixIsNull (create_error_placeholder e.size) = false) ∧
      (workerWork e).2 = []) := by
  have hwd : workerWork e =
      (if cacheHit e then (Except.ok (e.image_path, cacheVal e), [])
       else if e.src_exists = false then
         (Except.ok (e.image_path, create_error_placeholder e.size), [])
       else
         (Except.ok (e.image_path, (finalPix e).1),
          if e.has_cache = true ∧ (finalPix e).2 = false ∧
              (finalPix e).1.isErrorPlaceholder = false then
            [(finalPix e).1]
          else [])) := by
    rw [workerWork, hnc]
    simp
  constructor
  · intro p hp
    rw [hwd] at hp
    by_cases hch : cacheHit e
    · rw [if_pos hch] at hp
      simp at hp
    · rw [if_neg hch] at hp
      by_cases hse : e.src_exists = false
      · rw [if_pos hse] at hp
        simp at hp
      · rw [if_neg hse] at hp
        by_cases hguard : e.has_cache = true ∧ (finalPix e).2 = false ∧
            (finalPix e).1.isErrorPlaceholder = false
        · simp only [if_pos hguard] at hp
          rw [List.mem_singleton] at hp
          rw [hp]
          exact hguard.2.2
        · simp only [if_neg hguard] at hp
          simp at hp
  · intro hch hse hv hp' hq
    have hfail := attemptResult_failed e hv hp' hq
    have hfp : finalPix e = (create_error_placeholder e.size, true) := by
      rw [finalPix, if_pos hfail]
    rw [hwd, if_neg hch, if_neg (by rw [hse]; exact fun hcontra => by cases hcontra),
      hfp]
    refine ⟨rfl, rfl, rfl, rfl, rfl, ?_, ?_⟩
    · intro h1 h2
      rw [create_error_placeholder, wpixIsNull]
      simp only [Bool.or_eq_false_iff, beq_eq_false_iff_ne, ne_eq]
      omega
    · simp

/-- C9 witness: a concrete input where VIPS, PIL and Qt all fail. -/
theorem c9_error_placeholder_witness :
    (workerWork
      { image_path := "broken.png", size := (150, 150), has_cache := true,
        cacheGet := none, src_exists := true, has_pil := true, has_vips := true,
        use_vips := true, fallback_to_qt := true, size_threshold := 4096,
        detected_size := some (10000, 5000), vipsRes := none, pilRes := none,
        qtRes := none, is_cancelled := false }).1 =
      Except.ok ("broken.png", create_error_placeholder (150, 150)) ∧
    (workerWork
      { image_path := "broken.png", size := (150, 150), has_cache := true,
        cacheGet := none, src_exists := true, has_pil := true, has_vips := true,
        use_vips := true, fallback_to_qt := true, size_threshold := 4096,
        detected_size := some (10000, 5000), vipsRes := none, pilRes := none,
        qtRes := none, is_cancelled := false }).2 = [] := by
  have h := (c9_error_placeholder
    { image_path := "broken.png", size := (150, 150), has_cache := true,
      cacheGet := none, src_exists := true, has_pil := true, has_vips := true,
      use_vips := true, fallback_to_qt := true, size_threshold := 4096,
      detected_size := some (10000, 5000), vipsRes := none, pilRes := none,
      qtRes := none, is_cancelled := false } rfl).2
    (by decide) rfl rfl rfl rfl
  exact ⟨h.1, h.2.2.2.2.2.2⟩

end PictureViewer
